import Mathlib

/-!
Verification of the nicacher cache coordination engine against its
natural-language specification.

The Rust sources are shallowly embedded: strings are modelled as `List Char`
(`Str`), pure functions become Lean functions, the SQLite tables become
association lists inside an explicit state record, and each job becomes a
state-transformer function.  Rust's `char::is_alphanumeric` and `str::trim`
are modelled by Lean's ASCII-level `Char.isAlphanum` / `Char.isWhitespace`;
both sides of every theorem use the same predicate, so the statements are
insensitive to the exact Unicode tables.
-/

namespace Nicacher

/-- Rust strings, modelled as lists of characters. -/
abbrev Str : Type := List Char

/-- Conversion from Lean string literals to the `Str` model. -/
def lit (s : String) : Str := s.data

/-- Model of Rust `char::is_whitespace` (restricted to the characters that
occur in the descriptor format). -/
def rustIsWs (c : Char) : Bool := c.isWhitespace

/-- Model of Rust `char::is_alphanumeric` (ASCII restriction). -/
def rustIsAlnum (c : Char) : Bool := c.isAlphanum

/-- Model of Rust `str::trim`: drop whitespace from both ends. -/
def trimStr (s : Str) : Str :=
  ((s.dropWhile rustIsWs).reverse.dropWhile rustIsWs).reverse

/-- Split a string on every occurrence of the character `c`
(the single-separator case of Rust `str::split`). -/
def splitOnChar (c : Char) : Str → List Str
  | [] => [[]]
  | x :: xs =>
    if x = c then [] :: splitOnChar c xs
    else
      match splitOnChar c xs with
      | [] => [[x]]
      | t :: ts => (x :: t) :: ts

/-- Drop one trailing carriage return, as Rust `str::lines` does per line. -/
def stripCr (l : Str) : Str :=
  if l.getLast? = some '\r' then l.dropLast else l

/-- Model of Rust `str::lines`: split on newline, drop a final empty piece
(produced by a trailing newline), strip one trailing `\r` from each line. -/
def rustLines (s : Str) : List Str :=
  let ps := splitOnChar '\n' s
  (if ps.getLast? = some [] then ps.dropLast else ps).map stripCr

/-- Model of Rust `str::split_once`: split at the first occurrence of `c`,
returning the parts before and after it. -/
def splitOnceChar (c : Char) : Str → Option (Str × Str)
  | [] => none
  | x :: xs =>
    if x = c then some ([], xs)
    else (splitOnceChar c xs).map (fun p => (x :: p.1, p.2))

/-- Helper for `splitWs`: accumulates the current (reversed) token. -/
def splitWsAux : Str → Str → List Str
  | [], acc => if acc = [] then [] else [acc.reverse]
  | c :: cs, acc =>
    if rustIsWs c then
      if acc = [] then splitWsAux cs [] else acc.reverse :: splitWsAux cs []
    else splitWsAux cs (c :: acc)

/-- Model of Rust `str::split_whitespace`. -/
def splitWs (s : Str) : List Str := splitWsAux s []

/-- Little-endian base-10 digits of `n`, with structural fuel. -/
def natDigitsLE : Nat → Nat → List Nat
  | 0, _ => []
  | _, 0 => []
  | fuel + 1, n => (n % 10) :: natDigitsLE fuel (n / 10)

/-- The ASCII character of a decimal digit. -/
def digitChar (d : Nat) : Char := Char.ofNat (48 + d)

/-- Decimal rendering of a `usize` value (Rust `Display for usize`). -/
def natToChars (n : Nat) : Str :=
  if n = 0 then ['0']
  else ((natDigitsLE n n).reverse.map digitChar)

/-- Model of Rust `usize::from_str`: optional `+` sign, one or more ASCII
digits, value below `2 ^ 64` (64-bit overflow check). -/
def parseUsize (s : Str) : Option Nat :=
  let t := match s with
    | '+' :: r => r
    | _ => s
  if t = [] then none
  else if t.all Char.isDigit then
    let v := t.foldl (fun a c => 10 * a + (c.toNat - 48)) 0
    if v < 2 ^ 64 then some v else none
  else none

/-! ## Rust `std::path` model

Rust `Path::parent`, `Path::file_name` and `Path::join` at the string level,
for Unix paths whose components are not `.` or `..` (the descriptor store
paths).  `parent` slices off the final component and any separators before
it; `file_name` is the final component with trailing separators removed. -/

/-- Remove trailing `/` separators. -/
def stripSlashes (s : Str) : Str :=
  (s.reverse.dropWhile (fun c => c = '/')).reverse

/-- Model of Rust `Path::file_name`. -/
def rustFileName (s : Str) : Option Str :=
  let t := stripSlashes s
  if t = [] then none
  else
    let nm := (t.reverse.takeWhile (fun c => c ≠ '/')).reverse
    if nm = [] ∨ nm = ['.'] ∨ nm = ['.', '.'] then none else some nm

/-- Model of Rust `Path::parent`. -/
def rustParent (s : Str) : Option Str :=
  if s = [] then none
  else
    let t := stripSlashes s
    if t = [] then none
    else
      let rev := t.reverse
      let nmRev := rev.takeWhile (fun c => c ≠ '/')
      let restRev := rev.drop nmRev.length
      if restRev = [] then some []
      else
        let pre := (restRev.dropWhile (fun c => c = '/')).reverse
        if pre = [] then some ['/'] else some pre

/-- Model of Rust `Path::join` for a relative second argument
(absolute second arguments replace the path, as in Rust). -/
def rustJoin (root nm : Str) : Str :=
  if nm.head? = some '/' then nm
  else if root = [] then nm
  else if root.getLast? = some '/' then root ++ nm
  else root ++ '/' :: nm

/-! ## `nix.rs`: hashes, derivations, store paths, descriptors -/

/-- `nix::Hash`: an optional method tag (the `HashMethod` string newtype)
plus a digest string. -/
structure Hash where
  method : Option Str
  string : Str
deriving DecidableEq, Repr

/-- `nix::HashParseError`. -/
inductive HashParseError where
  | missingHash
  | hashNonAlphanumeric
deriving DecidableEq, Repr

/-- `nix::Hash::from_hash`. -/
def Hash.fromHash (s : Str) : Hash := ⟨none, s⟩

/-- `nix::Hash::from_method_hash`: note that the method is always wrapped in
`Some`, even when the stored method string is empty. -/
def Hash.fromMethodHash (m s : Str) : Hash := ⟨some m, s⟩

/-- `Display for nix::Hash`. -/
def hashToStr (h : Hash) : Str :=
  match h.method with
  | some m => m ++ ':' :: h.string
  | none => h.string

/-- `FromStr for nix::Hash`: split on the first `:`; an empty digest after a
`:` is rejected, an empty method means no method; the digest must be
alphanumeric. -/
def hashFromStr (s : Str) : Except HashParseError Hash :=
  match splitOnceChar ':' s with
  | none =>
    if s.all rustIsAlnum then .ok ⟨none, s⟩ else .error .hashNonAlphanumeric
  | some (_, []) => .error .missingHash
  | some ([], hs) =>
    if hs.all rustIsAlnum then .ok ⟨none, hs⟩ else .error .hashNonAlphanumeric
  | some (m, hs) =>
    if hs.all rustIsAlnum then .ok ⟨some m, hs⟩ else .error .hashNonAlphanumeric

/-- `nix::Derivation`: a package name and a hash. -/
structure Derivation where
  package : Str
  hash : Hash
deriving DecidableEq, Repr

/-- `nix::DerivationParseError`. -/
inductive DerivationParseError where
  | invalidFormat
  | missingPackageName
  | invalidHash (e : HashParseError)
deriving DecidableEq, Repr

/-- `nix::Derivation::name`: `hash.string ++ "-" ++ package` (the method tag
of the hash is dropped). -/
def derivName (d : Derivation) : Str := d.hash.string ++ '-' :: d.package

/-- `FromStr for nix::Derivation`: split on the first `-`. -/
def derivFromStr (s : Str) : Except DerivationParseError Derivation :=
  match splitOnceChar '-' s with
  | none => .error .invalidFormat
  | some (_, []) => .error .missingPackageName
  | some (h, p) =>
    match hashFromStr h with
    | .error e => .error (.invalidHash e)
    | .ok hh => .ok ⟨p, hh⟩

/-- `nix::CompressionType` (single variant `Xz`). -/
inductive CompressionType where
  | xz
deriving DecidableEq, Repr

/-- `Display for nix::CompressionType`. -/
def compToStr : CompressionType → Str
  | .xz => lit "xz"

/-- `FromStr for nix::CompressionType`. -/
def compFromStr (s : Str) : Except Str CompressionType :=
  if s = lit "xz" then .ok .xz else .error s

/-- `nix::StorePath`: a root path plus a derivation. -/
structure StorePath where
  storePathRoot : Str
  derivation : Derivation
deriving DecidableEq, Repr

/-- `nix::StorePath::path`. -/
def spPath (sp : StorePath) : Str :=
  rustJoin sp.storePathRoot (derivName sp.derivation)

/-- Equality of store paths uses the full path string (source `PartialEq`). -/
def spBeq (a b : StorePath) : Bool := spPath a = spPath b

/-- `nix::StorePathParseError`. -/
inductive StorePathParseError where
  | invalidPath (p : Str)
  | invalidDerivation (e : DerivationParseError)
deriving DecidableEq, Repr

/-- `TryFrom<&Path> for nix::StorePath`: the root is the parent, the
derivation is parsed from the file name. -/
def storePathFromStr (s : Str) : Except StorePathParseError StorePath :=
  match rustParent s with
  | none => .error (.invalidPath s)
  | some root =>
    match rustFileName s with
    | none => .error (.invalidPath s)
    | some nm =>
      match derivFromStr nm with
      | .error e => .error (.invalidDerivation e)
      | .ok d => .ok ⟨root, d⟩

/-- `nix::NarInfo`: the descriptor record. -/
structure NarInfo where
  storePath : StorePath
  url : Str
  compression : CompressionType
  fileHash : Hash
  fileSize : Nat
  narHash : Hash
  narSize : Nat
  deriver : Option Str
  system : Option Str
  references : List Derivation
  signature : Option Str
deriving DecidableEq, Repr

/-- Descriptor equality per the specification: store paths compare by their
full path string, every other field structurally. -/
def narInfoBeq (a b : NarInfo) : Bool :=
  spBeq a.storePath b.storePath ∧ a.url = b.url ∧
    a.compression = b.compression ∧ a.fileHash = b.fileHash ∧
    a.fileSize = b.fileSize ∧ a.narHash = b.narHash ∧
    a.narSize = b.narSize ∧ a.deriver = b.deriver ∧
    a.system = b.system ∧ a.references = b.references ∧
    a.signature = b.signature

/-- `nix::NarInfoParseError` (payloads kept as strings). -/
inductive NarInfoParseError where
  | invalidFieldValue (field : Str) (msg : Str)
  | missingField (field : Str)
  | unknownField (line : Str)
  | invalidReference (e : DerivationParseError)
  | invalidEntryFormat (line : Str)
deriving DecidableEq, Repr

/-- `nix::NarInfoBuilder` (from `derive_builder`): one optional slot per
field; `deriver`, `system` and `signature` carry builder defaults. -/
structure NarInfoB where
  storePath : Option StorePath := none
  url : Option Str := none
  compression : Option CompressionType := none
  fileHash : Option Hash := none
  fileSize : Option Nat := none
  narHash : Option Hash := none
  narSize : Option Nat := none
  deriver : Option (Option Str) := none
  system : Option (Option Str) := none
  references : Option (List Derivation) := none
  signature : Option (Option Str) := none
deriving DecidableEq, Repr

/-- `NarInfoBuilder::build`: fails with the first missing mandatory field;
`deriver`, `system`, `signature` default to `None`. -/
def narBuild (b : NarInfoB) : Except NarInfoParseError NarInfo :=
  match b.storePath with
  | none => .error (.missingField (lit "store_path"))
  | some storePath =>
  match b.url with
  | none => .error (.missingField (lit "url"))
  | some url =>
  match b.compression with
  | none => .error (.missingField (lit "compression"))
  | some compression =>
  match b.fileHash with
  | none => .error (.missingField (lit "file_hash"))
  | some fileHash =>
  match b.fileSize with
  | none => .error (.missingField (lit "file_size"))
  | some fileSize =>
  match b.narHash with
  | none => .error (.missingField (lit "nar_hash"))
  | some narHash =>
  match b.narSize with
  | none => .error (.missingField (lit "nar_size"))
  | some narSize =>
  match b.references with
  | none => .error (.missingField (lit "references"))
  | some references =>
    .ok ⟨storePath, url, compression, fileHash, fileSize, narHash, narSize,
      b.deriver.getD none, b.system.getD none, references,
      b.signature.getD none⟩

/-- `Display for nix::NarInfo`: the serialized descriptor text. -/
def narInfoToStr (ni : NarInfo) : Str :=
  lit "StorePath: " ++ spPath ni.storePath ++ '\n' ::
  (lit "URL: " ++ ni.url ++ '\n' ::
  (lit "Compression: " ++ compToStr ni.compression ++ '\n' ::
  (lit "FileHash: " ++ hashToStr ni.fileHash ++ '\n' ::
  (lit "FileSize: " ++ natToChars ni.fileSize ++ '\n' ::
  (lit "NarHash: " ++ hashToStr ni.narHash ++ '\n' ::
  (lit "NarSize: " ++ natToChars ni.narSize ++ '\n' ::
  ((match ni.deriver with
    | some d => lit "Deriver: " ++ d ++ ['\n']
    | none => []) ++
  (match ni.system with
    | some s => lit "System: " ++ s ++ ['\n']
    | none => []) ++
  lit "References:" ++
    ni.references.flatMap (fun d => ' ' :: derivName d) ++ '\n' ::
  (match ni.signature with
    | some s => lit "Sig: " ++ s ++ ['\n']
    | none => []))))))))

/-- One line of `FromStr for nix::NarInfo`: split at the first `:`, trim key
and value, dispatch on the key. -/
def narParseLine (b : NarInfoB) (line : Str) : Except NarInfoParseError NarInfoB :=
  match splitOnceChar ':' line with
  | none => .error (.invalidEntryFormat line)
  | some (k, v) =>
    let key := trimStr k
    let value := trimStr v
    if key = lit "StorePath" then
      match storePathFromStr value with
      | .error _ => .error (.invalidFieldValue (lit "StorePath") value)
      | .ok sp => .ok { b with storePath := some sp }
    else if key = lit "URL" then .ok { b with url := some value }
    else if key = lit "Compression" then
      match compFromStr value with
      | .error _ => .error (.invalidFieldValue (lit "Compression") value)
      | .ok c => .ok { b with compression := some c }
    else if key = lit "FileHash" then
      match hashFromStr value with
      | .error _ => .error (.invalidFieldValue (lit "FileHash") value)
      | .ok h => .ok { b with fileHash := some h }
    else if key = lit "FileSize" then
      match parseUsize value with
      | none => .error (.invalidFieldValue (lit "FileSize") value)
      | some n => .ok { b with fileSize := some n }
    else if key = lit "NarHash" then
      match hashFromStr value with
      | .error _ => .error (.invalidFieldValue (lit "NarHash") value)
      | .ok h => .ok { b with narHash := some h }
    else if key = lit "NarSize" then
      match parseUsize value with
      | none => .error (.invalidFieldValue (lit "NarSize") value)
      | some n => .ok { b with narSize := some n }
    else if key = lit "Deriver" then .ok { b with deriver := some (some value) }
    else if key = lit "System" then .ok { b with system := some (some value) }
    else if key = lit "References" then
      match (splitWs value).mapM derivFromStr with
      | .error e => .error (.invalidReference e)
      | .ok rs => .ok { b with references := some rs }
    else if key = lit "Sig" then .ok { b with signature := some (some value) }
    else .error (.unknownField line)

/-- `FromStr for nix::NarInfo`: fold the line parser over the input lines,
then build. -/
def narInfoFromStr (s : Str) : Except NarInfoParseError NarInfo :=
  ((rustLines s).foldlM narParseLine {}) >>= narBuild

/-! ## `cache.rs`: the metadata store

The SQLite tables are modelled as association lists: `cache(hash, status)`
(the status stored as its `i64` representation, as the `num_enum` derive
does) and `narinfo(hash, …, upstream_url)`. -/

/-- `cache::Status` (the revision used by `jobs.rs`, with `OnlyInfo`). -/
inductive Status where
  | notAvailable
  | fetching
  | onlyInfo
  | available
  | purging
deriving DecidableEq, Repr

/-- `num_enum::IntoPrimitive` for `Status`. -/
def statusToInt : Status → Int
  | .notAvailable => 0
  | .fetching => 1
  | .onlyInfo => 2
  | .available => 3
  | .purging => 4

/-- `num_enum::FromPrimitive` for `Status`: unknown values map to the
default `NotAvailable`. -/
def statusOfInt (i : Int) : Status :=
  if i = 1 then .fetching
  else if i = 2 then .onlyInfo
  else if i = 3 then .available
  else if i = 4 then .purging
  else .notAvailable

/-- `cache::NarInfoEntry`: one row of the `narinfo` table (sans upstream). -/
structure NarInfoEntry where
  hash : Str
  storePath : Str
  compression : Str
  fileHashMethod : Str
  fileHash : Str
  fileSize : Int
  narHashMethod : Str
  narHash : Str
  narSize : Int
  deriver : Option Str
  system : Option Str
  refs : Str
  signature : Option Str
deriving DecidableEq, Repr

/-- Rust `usize as i64`: reinterpret the low 64 bits as a signed value. -/
def i64OfNat (n : Nat) : Int :=
  let m : Nat := n % 2 ^ 64
  if m < 2 ^ 63 then (m : Int) else (m : Int) - 2 ^ 64

/-- Rust `i64 as usize`: reinterpret as an unsigned 64-bit value. -/
def usizeOfI64 (i : Int) : Nat := (i % 2 ^ 64).toNat

/-- The `refs` column: `references.iter().fold(String::new(), |a, v| a + " " + &v)`,
a leading-space-separated concatenation of derivation names. -/
def refsColumn (refs : List Derivation) : Str :=
  refs.flatMap (fun d => ' ' :: derivName d)

/-- `NarInfoEntry::from_nar_info`.  Note that both `file_hash_method` and
`nar_hash_method` are filled from the *file* hash's method
(`unwrap_or_default` renders a missing method as the empty string). -/
def entryFromNarInfo (h : Str) (ni : NarInfo) : NarInfoEntry where
  hash := h
  storePath := spPath ni.storePath
  compression := compToStr ni.compression
  fileHashMethod := ni.fileHash.method.getD []
  fileHash := ni.fileHash.string
  fileSize := i64OfNat ni.fileSize
  narHashMethod := ni.fileHash.method.getD []
  narHash := ni.narHash.string
  narSize := i64OfNat ni.narSize
  deriver := ni.deriver
  system := ni.system
  refs := refsColumn ni.references
  signature := ni.signature

/-- `TryFrom<NarInfoEntry> for nix::NarInfo`: hashes are rebuilt with
`from_method_hash` (always a `Some` method), the URL is recomputed from the
file hash and compression, the refs column is split on whitespace. -/
def narInfoOfEntry (e : NarInfoEntry) : Except NarInfoParseError NarInfo :=
  let fileHash := Hash.fromMethodHash e.fileHashMethod e.fileHash
  match compFromStr e.compression with
  | .error _ => .error (.invalidFieldValue (lit "Compression") e.compression)
  | .ok compression =>
    let url := lit "nar/" ++ fileHash.string ++ lit ".nar." ++ compToStr compression
    match storePathFromStr e.storePath with
    | .error _ => .error (.invalidFieldValue (lit "StorePath") e.storePath)
    | .ok storePath =>
      match (splitWs e.refs).mapM derivFromStr with
      | .error er => .error (.invalidReference er)
      | .ok references =>
        narBuild
          { storePath := some storePath
            url := some url
            compression := some compression
            fileHash := some fileHash
            fileSize := some (usizeOfI64 e.fileSize)
            narHash := some (Hash.fromMethodHash e.narHashMethod e.narHash)
            narSize := some (usizeOfI64 e.narSize)
            deriver := some e.deriver
            system := some e.system
            references := some references
            signature := some e.signature }

/-- One row of the `narinfo` table, upstream URL included. -/
structure NarInfoRow where
  entry : NarInfoEntry
  upstreamUrl : Str
deriving DecidableEq, Repr

/-- The metadata store: the `cache` table (hash → status int) and the
`narinfo` table. -/
structure CacheDb where
  cacheTbl : List (Str × Int)
  narinfoTbl : List NarInfoRow
deriving DecidableEq, Repr

/-- `cache::status`: `SELECT status FROM cache WHERE hash = ?`. -/
def dbStatus (db : CacheDb) (h : Str) : Option Status :=
  (db.cacheTbl.find? (fun r => r.1 = h)).map (fun r => statusOfInt r.2)

/-- `cache::insert_status`: `INSERT INTO cache VALUES (?,?)` — fails on a
primary-key conflict. -/
def dbInsStatus (db : CacheDb) (h : Str) (s : Status) : Option CacheDb :=
  if (db.cacheTbl.find? (fun r => r.1 = h)).isSome then none
  else some { db with cacheTbl := db.cacheTbl ++ [(h, statusToInt s)] }

/-- `cache::update_status`: `UPDATE cache SET status = ? WHERE hash = ?`
(no-op when the row is absent). -/
def dbUpdStatus (db : CacheDb) (h : Str) (s : Status) : CacheDb :=
  { db with
    cacheTbl := db.cacheTbl.map (fun r => if r.1 = h then (r.1, statusToInt s) else r) }

/-- `cache::purge_nar_info`: `DELETE FROM cache WHERE hash = ?` — deletes
the lifecycle row only, never the `narinfo` row. -/
def dbPurgeCache (db : CacheDb) (h : Str) : CacheDb :=
  { db with cacheTbl := db.cacheTbl.filter (fun r => ¬ (r.1 = h)) }

/-- `cache::insert_nar_info`: `REPLACE` when `force`, plain `INSERT`
(conflict = failure) otherwise. -/
def dbInsertNarInfo (db : CacheDb) (h : Str) (ni : NarInfo) (upstreamUrl : Str)
    (force : Bool) : Option CacheDb :=
  let row : NarInfoRow := ⟨entryFromNarInfo h ni, upstreamUrl⟩
  if force then
    some { db with
      narinfoTbl := db.narinfoTbl.filter (fun r => ¬ (r.entry.hash = h)) ++ [row] }
  else if (db.narinfoTbl.find? (fun r => r.entry.hash = h)).isSome then none
  else some { db with narinfoTbl := db.narinfoTbl ++ [row] }

/-- `cache::get_nar_info`: row lookup followed by the `TryFrom` decode. -/
def dbGetNarInfo (db : CacheDb) (h : Str) : Option (Except NarInfoParseError NarInfo) :=
  (db.narinfoTbl.find? (fun r => r.entry.hash = h)).map (fun r => narInfoOfEntry r.entry)

/-- `cache::get_nar_info_with_upstream`. -/
def dbGetNarInfoWithUp (db : CacheDb) (h : Str) :
    Option (Except NarInfoParseError (NarInfo × Str)) :=
  (db.narinfoTbl.find? (fun r => r.entry.hash = h)).map
    (fun r => (narInfoOfEntry r.entry).map (fun ni => (ni, r.upstreamUrl)))

/-- `cache::nar_file_path_from_parts`:
`<local_data_path>/nar/<file_hash>.nar.<compression>`. -/
def narFilePathParts (dataPath : Str) (fileHash : Hash) (c : CompressionType) : Str :=
  rustJoin (rustJoin dataPath (lit "nar")) (fileHash.string ++ lit ".nar." ++ compToStr c)

/-- `cache::get_nar_file_path`: look the row up, parse its compression
column (parse failure is an error), build the archive path. -/
def dbGetNarFilePath (db : CacheDb) (dataPath : Str) (h : Str) :
    Except Str (Option Str) :=
  match db.narinfoTbl.find? (fun r => r.entry.hash = h) with
  | none => .ok none
  | some r =>
    match compFromStr r.entry.compression with
    | .error e => .error e
    | .ok c =>
      .ok (some (narFilePathParts dataPath
        (Hash.fromMethodHash r.entry.fileHashMethod r.entry.fileHash) c))

/-- Modelled from the spec and `cache/db.rs::set_last_cached` (the job code
in `jobs.rs` never calls it): stamp a row's `last_cached` column to the
current time.  The column lives outside the `(hash, status)` schema used by
the jobs revision, so it is modelled as a separate table. -/
def setLastCachedCol (tbl : List (Str × Nat)) (h : Str) (now : Nat) : List (Str × Nat) :=
  tbl.map (fun r => if r.1 = h then (r.1, now) else r)

/-! ## `fetch.rs`: the upstream client

Network responses are abstracted by an oracle `ok : Str → Bool` saying
which request URLs succeed.  Each fan-out returns the list of URLs
contacted, in order, and the first successful URL. -/

/-- Model of `url::Url::join`: a relative path resolves against the base,
replacing the segment after the last `/` (kept when the base ends in `/`). -/
def urlJoin (base rel : Str) : Str :=
  if base.getLast? = some '/' then base ++ rel
  else (base.reverse.dropWhile (fun c => c ≠ '/')).reverse ++ rel

/-- The shared fan-out loop of `request_nar_info_raw` / `request_nar_file_raw`:
try each configured upstream in order, return on the first success. -/
def upstreamFanout (upUrls : List Str) (urlPath : Str) (ok : Str → Bool) :
    List Str × Option Str :=
  match upUrls with
  | [] => ([], none)
  | u :: rest =>
    let url := urlJoin u urlPath
    if ok url then ([url], some url)
    else
      let r := upstreamFanout rest urlPath ok
      (url :: r.1, r.2)

/-- `fetch::request_nar_info_raw`: GET `<upstream>/<hash>.narinfo` across
all upstreams; `None` models the `AllUpstreamsFailed` error. -/
def requestNarInfoRaw (upUrls : List Str) (hashStr : Str) (ok : Str → Bool) :
    List Str × Option Str :=
  upstreamFanout upUrls (hashStr ++ lit ".narinfo") ok

/-- `fetch::request_nar_file_raw`: GET `<upstream>/<url_path>` across all
upstreams; `None` models the all-upstreams-failed error. -/
def requestNarFileRaw (upUrls : List Str) (urlPath : Str) (ok : Str → Bool) :
    List Str × Option Str :=
  upstreamFanout upUrls urlPath ok

/-! ## `jobs.rs`: the cache and purge jobs

Each job is a state transformer on the metadata store plus the archive
directory, parameterised by the outcomes of its network calls, and
returning the `apalis` job result together with a log of its store writes
and upstream fetches. -/

/-- `apalis::JobResult` (the variants the jobs produce). -/
inductive JobOutcome where
  | success
  | kill
  | reschedule (secs : Nat)
  | retry
deriving DecidableEq, Repr

/-- A job run either returns a `JobResult` or fails with a `JobError`. -/
inductive JobRes where
  | ok (o : JobOutcome)
  | err
deriving DecidableEq, Repr

/-- Observable actions of a job: metadata-store writes and upstream calls. -/
inductive Ev where
  | setStatus (s : Status)
  | insStatus (s : Status)
  | setLastCached
  | fetchInfoUpstream
  | fetchFileUpstream
deriving DecidableEq, Repr

/-- The mutable state a job acts on: the store and the nar file directory
(a set of file paths). -/
structure Sys where
  db : CacheDb
  files : List Str
deriving DecidableEq, Repr

/-- The status decision of `cache_nar`'s first transaction, one source match
arm per case (`goInfo` is the `OnlyInfo && !force` read-only path). -/
inductive CacheTx1 where
  | halt (o : JobOutcome)
  | goInfo
  | goFetch
deriving DecidableEq, Repr

/-- The `match cache::status(...)` of `jobs::cache_nar`. -/
def cacheNarDecide (st : Option Status) (isForce : Bool) : CacheTx1 :=
  match st, isForce with
  | some .fetching, _ => .halt .kill
  | some .available, false => .halt .kill
  | some .purging, true => .halt (.reschedule 10)
  | some .purging, false => .halt .kill
  | some .onlyInfo, false => .goInfo
  | _, _ => .goFetch

/-- Tail of `cache_nar`: download the nar file (`download_nar_file`), then
`update_status(Available)` (auto-commit). -/
def cacheNarDownload (dataPath : Str) (sys : Sys) (h : Str) (ni : NarInfo)
    (ev : List Ev) (downloadOk : Bool) : JobRes × Sys × List Ev :=
  if downloadOk then
    let path := narFilePathParts dataPath ni.fileHash ni.compression
    let files2 := if path ∈ sys.files then sys.files else sys.files ++ [path]
    (.ok .success,
      { db := dbUpdStatus sys.db h .available
        files := files2 },
      ev ++ [.fetchFileUpstream, .setStatus .available])
  else (.err, sys, ev ++ [.fetchFileUpstream])

/-- The fetch phase of `cache_nar`, entered after the first transaction has
committed `Fetching` (`ev1` holds that transaction's write): request the
narinfo from the upstreams, insert it together with the `OnlyInfo` status
in one transaction, then download. -/
def cacheNarFetchPhase (dataPath : Str) (sys : Sys) (h : Str) (isForce : Bool)
    (ev1 : List Ev) (fetchRes : Option (NarInfo × Str)) (downloadOk : Bool) :
    JobRes × Sys × List Ev :=
  match fetchRes with
  | none => (.err, sys, ev1 ++ [Ev.fetchInfoUpstream])
  | some pr =>
    match dbInsertNarInfo sys.db h pr.1 pr.2 isForce with
    | none => (.err, sys, ev1 ++ [Ev.fetchInfoUpstream])
    | some db2 =>
      cacheNarDownload dataPath { sys with db := dbUpdStatus db2 h .onlyInfo }
        h pr.1 (ev1 ++ [Ev.fetchInfoUpstream, Ev.setStatus .onlyInfo]) downloadOk

/-- `jobs::cache_nar`.  `fetchRes` is the outcome of
`fetch::request_nar_info` (`none` = every upstream failed), `downloadOk`
the outcome of the nar file download. -/
def cacheNar (dataPath : Str) (sys : Sys) (h : Str) (isForce : Bool)
    (fetchRes : Option (NarInfo × Str)) (downloadOk : Bool) :
    JobRes × Sys × List Ev :=
  match cacheNarDecide (dbStatus sys.db h) isForce with
  | .halt o => (.ok o, sys, [])
  | .goInfo =>
    match dbGetNarInfoWithUp sys.db h with
    | none => (.ok .retry, sys, [])
    | some (.error _) => (.err, sys, [])
    | some (.ok pr) => cacheNarDownload dataPath sys h pr.1 [] downloadOk
  | .goFetch =>
    match dbStatus sys.db h with
    | none =>
      match dbInsStatus sys.db h .fetching with
      | none => (.err, sys, [])
      | some db1 =>
        cacheNarFetchPhase dataPath { sys with db := db1 } h isForce
          [Ev.insStatus .fetching] fetchRes downloadOk
    | some _ =>
      cacheNarFetchPhase dataPath { sys with db := dbUpdStatus sys.db h .fetching }
        h isForce [Ev.setStatus .fetching] fetchRes downloadOk

/-- The status decision of `purge_nar`'s first transaction; `go b` proceeds
with `is_nar_file_cached = b`. -/
inductive PurgeTx1 where
  | halt (o : JobOutcome)
  | go (isCached : Bool)
deriving DecidableEq, Repr

/-- The `match cache::status(...)` of `jobs::purge_nar`. -/
def purgeNarDecide (st : Option Status) (isForce : Bool) : PurgeTx1 :=
  match st, isForce with
  | none, _ => .halt .kill
  | some .purging, _ => .halt .kill
  | some .fetching, true => .halt (.reschedule 10)
  | some .fetching, false => .halt .kill
  | some .notAvailable, false => .halt .kill
  | some .notAvailable, true => .go false
  | some .onlyInfo, _ => .go false
  | _, _ => .go true

/-- `jobs::purge_nar`: guard, `update_status(Purging)`, optional file
removal (a missing file is an error, per `tokio::fs::remove_file`), then
`purge_nar_info`. -/
def purgeNar (dataPath : Str) (sys : Sys) (h : Str) (isForce : Bool) :
    JobRes × Sys × List Ev :=
  match purgeNarDecide (dbStatus sys.db h) isForce with
  | .halt o => (.ok o, sys, [])
  | .go isCached =>
    let sys1 : Sys := { sys with db := dbUpdStatus sys.db h .purging }
    let ev1 : List Ev := [Ev.setStatus .purging]
    if isCached then
      match dbGetNarFilePath sys1.db dataPath h with
      | .error _ => (.err, sys1, ev1)
      | .ok op =>
        match op with
        | none => (.ok .retry, sys1, ev1)
        | some path =>
          if path ∈ sys1.files then
            (.ok .success,
              { db := dbPurgeCache sys1.db h
                files := sys1.files.filter (fun p => ¬ (p = path)) },
              ev1)
          else (.err, sys1, ev1)
    else (.ok .success, { sys1 with db := dbPurgeCache sys1.db h }, ev1)

/-! ## `config.rs`: configuration loading

TOML values are modelled structurally; `serde`'s generated deserializer
visits the document's top-level entries in order and, because of
`deny_unknown_fields`, rejects any key outside the five recognized ones.
URL validity is modelled coarsely (a URL must contain a `:`). -/

/-- A TOML value. -/
inductive TomlValue where
  | vStr (s : Str)
  | vInt (n : Int)
  | vArr (l : List TomlValue)
  | vTable (l : List (Str × TomlValue))
deriving Repr

/-- `nix::PriorityUpstream`: a base URL plus a priority (default 40). -/
structure PriorityUpstream where
  url : Str
  priority : Nat
deriving DecidableEq, Repr

/-- `config::Config` (paths and URLs kept as strings). -/
structure Config where
  upstreams : List PriorityUpstream
  channelUrl : Str
  channels : List Str
  localDataPath : Str
  databaseMaxConnections : Nat
deriving DecidableEq, Repr

/-- `Config::default`. -/
def configDefault : Config where
  upstreams := [⟨lit "https://cache.nixos.org/", 40⟩]
  channelUrl := lit "https://channels.nixos.org/"
  channels := [lit "nixpkgs-unstable"]
  localDataPath := lit "."
  databaseMaxConnections := 20

/-- Coarse model of `url::Url::parse` validity: a scheme separator must be
present. -/
def urlOk (s : Str) : Bool := ':' ∈ s

/-- Lexicographic comparison of strings by code point (Rust `Ord for str`,
ASCII-level). -/
def strLt : Str → Str → Bool
  | [], [] => false
  | [], _ :: _ => true
  | _ :: _, [] => false
  | a :: as_, b :: bs =>
    if a.toNat < b.toNat then true
    else if a.toNat = b.toNat then strLt as_ bs
    else false

/-- `Ord for PriorityUpstream`: priority first, then URL. -/
def puLe (a b : PriorityUpstream) : Bool :=
  a.priority < b.priority ||
    (a.priority = b.priority && (strLt a.url b.url || a.url = b.url))

/-- `BTreeSet::insert` on the sorted, deduplicated upstream list. -/
def sortedInsertPU : List PriorityUpstream → PriorityUpstream → List PriorityUpstream
  | [], x => [x]
  | y :: ys, x =>
    if x = y then y :: ys
    else if puLe x y then x :: y :: ys
    else y :: sortedInsertPU ys x

/-- The `StringOrStruct` visitor for one upstream list element: a string is
parsed as a URL with default priority; a map is the `{url, priority}` form
(`deny_unknown_fields`). -/
def decodeUpstreamElem : TomlValue → Except Str PriorityUpstream
  | .vStr s => if urlOk s then .ok ⟨s, 40⟩ else .error (lit "relative URL without a base")
  | .vTable kvs =>
    let step := fun (b : Option Str × Option Nat) (kv : Str × TomlValue) =>
      if kv.1 = lit "url" then
        match kv.2 with
        | .vStr s => if urlOk s then Except.ok (some s, b.2)
                     else .error (lit "relative URL without a base")
        | _ => .error (lit "invalid type for url")
      else if kv.1 = lit "priority" then
        match kv.2 with
        | .vInt n => if 0 ≤ n ∧ n < 2 ^ 32 then Except.ok (b.1, some n.toNat)
                     else .error (lit "priority out of range")
        | _ => .error (lit "invalid type for priority")
      else .error (lit "unknown field " ++ kv.1)
    match kvs.foldlM step (none, none) with
    | .error e => .error e
    | .ok (none, _) => .error (lit "missing field url")
    | .ok (some u, p) => .ok ⟨u, p.getD 40⟩
  | _ => .error (lit "expected string or map")

/-- The `SetStringOrStruct` visitor: a sequence of elements collected into
the ordered set. -/
def decodeUpstreams (v : TomlValue) : Except Str (List PriorityUpstream) :=
  match v with
  | .vArr l => (l.mapM decodeUpstreamElem).map (fun xs => xs.foldl sortedInsertPU [])
  | _ => .error (lit "expected sequence of strings or maps")

/-- Decoder for a URL-typed field. -/
def decodeUrlField : TomlValue → Except Str Str
  | .vStr s => if urlOk s then .ok s else .error (lit "relative URL without a base")
  | _ => .error (lit "invalid type for url field")

/-- Decoder for the channel list. -/
def decodeChannels : TomlValue → Except Str (List Str)
  | .vArr l =>
    l.mapM (fun v =>
      match v with
      | .vStr s => Except.ok s
      | _ => .error (lit "invalid type for channel"))
  | _ => .error (lit "invalid type for channels")

/-- Decoder for a path-typed field. -/
def decodePathField : TomlValue → Except Str Str
  | .vStr s => .ok s
  | _ => .error (lit "invalid type for path")

/-- Decoder for a `u32` field. -/
def decodeU32 : TomlValue → Except Str Nat
  | .vInt n => if 0 ≤ n ∧ n < 2 ^ 32 then .ok n.toNat else .error (lit "out of range")
  | _ => .error (lit "invalid type for integer")

/-- Partial configuration while deserializing. -/
structure ConfigB where
  upstreams : Option (List PriorityUpstream) := none
  channelUrl : Option Str := none
  channels : Option (List Str) := none
  localDataPath : Option Str := none
  databaseMaxConnections : Option Nat := none
deriving DecidableEq, Repr

/-- One top-level document entry: dispatch on the key, rejecting unknown
keys (`deny_unknown_fields`). -/
def configApplyKV (b : ConfigB) (kv : Str × TomlValue) : Except Str ConfigB :=
  if kv.1 = lit "upstreams" then
    (decodeUpstreams kv.2).map (fun u => { b with upstreams := some u })
  else if kv.1 = lit "channel_url" then
    (decodeUrlField kv.2).map (fun u => { b with channelUrl := some u })
  else if kv.1 = lit "channels" then
    (decodeChannels kv.2).map (fun c => { b with channels := some c })
  else if kv.1 = lit "local_data_path" then
    (decodePathField kv.2).map (fun p => { b with localDataPath := some p })
  else if kv.1 = lit "database_max_connections" then
    (decodeU32 kv.2).map (fun n => { b with databaseMaxConnections := some n })
  else .error (lit "unknown field " ++ kv.1)

/-- `toml::from_str::<Config>`: fold the entries, then fill missing fields
from the defaults (`serde(default)`). -/
def tomlDecodeConfig (doc : List (Str × TomlValue)) : Except Str Config :=
  (doc.foldlM configApplyKV {}).map (fun b =>
    ⟨b.upstreams.getD configDefault.upstreams,
     b.channelUrl.getD configDefault.channelUrl,
     b.channels.getD configDefault.channels,
     b.localDataPath.getD configDefault.localDataPath,
     b.databaseMaxConnections.getD configDefault.databaseMaxConnections⟩)

/-- `Config::get`: `none` models an unset `NICACHER_CONFIG` or unreadable
file; any read or parse failure falls back to the defaults. -/
def configGet (file : Option (List (Str × TomlValue))) : Config :=
  match file with
  | none => configDefault
  | some doc =>
    match tomlDecodeConfig doc with
    | .ok c => c
    | .error _ => configDefault

/-! ## Concurrency model for the worker pool

Workers interleave at the suspension points of `cache_nar` / `purge_nar`;
each database transaction (and each auto-committed write) is one atomic
step, serialized by the store.  A worker's `claim` records the in-flight
status (`Fetching` / `Purging`) it has set and not yet superseded: this is
the "in-flight owner" of the specification.  Downloads are assumed to
succeed (the counterexample needs no failures). -/

/-- Program points of a worker between atomic database steps. -/
inductive WPc where
  | pcInit
  | pcInfoRead
  | pcFetched
  | pcDownload
  | pcPurge (isCached : Bool)
  | pcDone (r : JobRes)
deriving DecidableEq, Repr

/-- One worker: which job it runs, its flags, the outcome of its upstream
fetch, its program point, and the in-flight claim it currently holds. -/
structure WorkerSt where
  isPurge : Bool
  isForce : Bool
  fetchOk : Bool
  pc : WPc
  claim : Option Status
deriving DecidableEq, Repr

/-- The shared state for one hash plus the worker pool. -/
structure World where
  status : Option Status
  hasNarinfo : Bool
  ws : List WorkerSt
deriving DecidableEq, Repr

/-- Replace worker `i`. -/
def setW (l : List WorkerSt) (i : Nat) (w : WorkerSt) : List WorkerSt :=
  l.set i w

/-- One atomic step of worker `i` (no-op for an out-of-range index or a
finished worker), following `jobs.rs` step by step. -/
def stepWorker (w : World) (i : Nat) : World :=
  match w.ws.get? i with
  | none => w
  | some wk =>
    if wk.isPurge then
      match wk.pc with
      | .pcInit =>
        match purgeNarDecide w.status wk.isForce with
        | .halt o => { w with ws := setW w.ws i { wk with pc := .pcDone (.ok o) } }
        | .go b =>
          { w with
            status := some .purging
            ws := setW w.ws i { wk with pc := .pcPurge b, claim := some .purging } }
      | .pcPurge b =>
        if b ∧ ¬ w.hasNarinfo then
          { w with ws := setW w.ws i { wk with pc := .pcDone (.ok .retry), claim := none } }
        else
          { w with
            status := none
            ws := setW w.ws i { wk with pc := .pcDone (.ok .success), claim := none } }
      | _ => w
    else
      match wk.pc with
      | .pcInit =>
        match cacheNarDecide w.status wk.isForce with
        | .halt o => { w with ws := setW w.ws i { wk with pc := .pcDone (.ok o) } }
        | .goInfo => { w with ws := setW w.ws i { wk with pc := .pcInfoRead } }
        | .goFetch =>
          { w with
            status := some .fetching
            ws := setW w.ws i { wk with pc := .pcFetched, claim := some .fetching } }
      | .pcFetched =>
        if wk.fetchOk then
          { w with
            status := some .onlyInfo
            hasNarinfo := true
            ws := setW w.ws i { wk with pc := .pcDownload, claim := none } }
        else { w with ws := setW w.ws i { wk with pc := .pcDone .err, claim := none } }
      | .pcInfoRead =>
        if w.hasNarinfo then { w with ws := setW w.ws i { wk with pc := .pcDownload } }
        else { w with ws := setW w.ws i { wk with pc := .pcDone (.ok .retry) } }
      | .pcDownload =>
        { w with
          status := some .available
          ws := setW w.ws i { wk with pc := .pcDone (.ok .success), claim := none } }
      | _ => w

/-- Run a schedule (list of worker indices). -/
def runW (w : World) (sched : List Nat) : World := sched.foldl stepWorker w

/-- How many workers currently hold an in-flight claim. -/
def holdersCount (w : World) : Nat :=
  (w.ws.filter (fun x => x.claim.isSome)).length

/-! ## Concrete instances used by counterexamples and witnesses -/

/-- An empty store. -/
def sysEmpty : Sys := ⟨⟨[], []⟩, []⟩

/-- A store in which hash `h1` has status `NotAvailable`. -/
def sysNA1 : Sys := ⟨⟨[(lit "h1", 0)], []⟩, []⟩

/-- A store in which hash `h2` has status `Fetching`. -/
def sysF2 : Sys := ⟨⟨[(lit "h2", 1)], []⟩, []⟩

/-- A store in which hash `h2` has status `Available`. -/
def sysAv2 : Sys := ⟨⟨[(lit "h2", 3)], []⟩, []⟩

/-- The C1 counterexample run: empty store, `force = false`, every upstream
failed. -/
def c1Run : JobRes × Sys × List Ev :=
  cacheNar (lit "/data") sysEmpty (lit "h1") false none true

/-- The C5 counterexample run: status `NotAvailable`, so the first
transaction updates the status to `Fetching`; every upstream failed. -/
def c5Run : JobRes × Sys × List Ev :=
  cacheNar (lit "/data") sysNA1 (lit "h1") false none true

/-- Upstream bases for the C4 counterexample. -/
def ups4 : List Str := [lit "https://a/", lit "https://b/"]

/-- The response oracle for C4: only upstream `b` has the file. -/
def ok4 (u : Str) : Bool := u = lit "https://b/nar/f.nar.xz"

/-- The C4 counterexample run. -/
def c4Run : List Str × Option Str :=
  requestNarFileRaw ups4 (lit "nar/f.nar.xz") ok4

/-- A small well-formed descriptor used by witnesses. -/
def d7 : NarInfo where
  storePath := ⟨lit "/nix/store", ⟨lit "pkg", ⟨none, lit "abc"⟩⟩⟩
  url := lit "nar/fh11.nar.xz"
  compression := .xz
  fileHash := ⟨some (lit "sha256"), lit "fh11"⟩
  fileSize := 7
  narHash := ⟨some (lit "sha256"), lit "nh22"⟩
  narSize := 9
  deriver := none
  system := none
  references := [⟨lit "pkg", ⟨none, lit "abc"⟩⟩]
  signature := none

/-- The C9 counterexample document: a single unrecognized key. -/
def badDoc : List (Str × TomlValue) := [(lit "bogus", .vInt 1)]

/-- The C10 initial world: hash status `OnlyInfo` with its descriptor row
present; worker 0 runs `CacheNar(force=false)`, workers 1 and 2 run
`PurgeNar(force=false)`. -/
def c10w0 : World :=
  ⟨some .onlyInfo, true,
   [⟨false, false, true, .pcInit, none⟩,
    ⟨true, false, true, .pcInit, none⟩,
    ⟨true, false, true, .pcInit, none⟩]⟩

/-- The C10 schedule: worker 0 reads the `OnlyInfo` status and the
descriptor, worker 1 claims `Purging`, worker 0 finishes by writing
`Available`, worker 2 claims `Purging` from `Available`. -/
def c10sched : List Nat := [0, 0, 1, 0, 2]

/-! ## Well-formedness predicates for the descriptor codec

These capture exactly what a successful `narInfoFromStr` guarantees about
each field (trimmedness, no embedded newline, the hash alphabet checks),
plus the canonical reparse of a store path (whose derivation hash loses
its method tag on display). -/

/-- The first character, if any, is not whitespace. -/
def HeadNotWs (s : Str) : Prop := ∀ c, s.head? = some c → rustIsWs c = false

/-- The last character, if any, is not whitespace. -/
def LastNotWs (s : Str) : Prop := ∀ c, s.getLast? = some c → rustIsWs c = false

/-- A free-text field value as produced by the parser: trimmed, single
line. -/
def ValWF (s : Str) : Prop := trimStr s = s ∧ '\n' ∉ s

/-- What `hashFromStr` guarantees about a parsed hash. -/
def HashWF (h : Hash) : Prop :=
  h.string.all rustIsAlnum = true ∧
  ∀ m, h.method = some m →
    m ≠ [] ∧ ':' ∉ m ∧ '\n' ∉ m ∧ h.string ≠ [] ∧ HeadNotWs m

/-- What the `References` parser guarantees about each reference. -/
def DerivRefWF (d : Derivation) : Prop :=
  d.hash.string.all rustIsAlnum = true ∧ d.package ≠ [] ∧
    ∀ c ∈ d.package, rustIsWs c = false

/-- The shapes `rustParent` can output. -/
def RootOk (r : Str) : Prop := r = [] ∨ r = ['/'] ∨ (r ≠ [] ∧ r.getLast? ≠ some '/')

/-- What `storePathFromStr` guarantees about a parsed store path. -/
def SpWF (sp : StorePath) : Prop :=
  RootOk sp.storePathRoot ∧ HeadNotWs sp.storePathRoot ∧
    '\n' ∉ sp.storePathRoot ∧
    sp.derivation.hash.string.all rustIsAlnum = true ∧
    sp.derivation.package ≠ [] ∧ '/' ∉ sp.derivation.package ∧
    '\n' ∉ sp.derivation.package

/-- Every field guarantee of a successfully parsed descriptor. -/
def NarInfoWF (ni : NarInfo) : Prop :=
  SpWF ni.storePath ∧ ValWF ni.url ∧ HashWF ni.fileHash ∧
    ni.fileSize < 2 ^ 64 ∧ HashWF ni.narHash ∧ ni.narSize < 2 ^ 64 ∧
    (∀ v, ni.deriver = some v → ValWF v) ∧
    (∀ v, ni.system = some v → ValWF v) ∧
    (∀ r ∈ ni.references, DerivRefWF r) ∧
    (∀ v, ni.signature = some v → ValWF v)

/-- The store path obtained by reparsing a rendered store path: the same
root and package, but the derivation hash loses its method tag (which the
rendering `Derivation::name` drops). -/
def spCanon (sp : StorePath) : StorePath :=
  ⟨sp.storePathRoot, ⟨sp.derivation.package, ⟨none, sp.derivation.hash.string⟩⟩⟩

/-- A descriptor after one render/reparse cycle. -/
def narCanon (ni : NarInfo) : NarInfo := { ni with storePath := spCanon ni.storePath }

/-- The lines of the rendered descriptor (each is emitted followed by a
single newline). -/
def narLines (ni : NarInfo) : List Str :=
  [lit "StorePath: " ++ spPath ni.storePath,
   lit "URL: " ++ ni.url,
   lit "Compression: " ++ compToStr ni.compression,
   lit "FileHash: " ++ hashToStr ni.fileHash,
   lit "FileSize: " ++ natToChars ni.fileSize,
   lit "NarHash: " ++ hashToStr ni.narHash,
   lit "NarSize: " ++ natToChars ni.narSize] ++
  (match ni.deriver with
   | some v => [lit "Deriver: " ++ v]
   | none => []) ++
  (match ni.system with
   | some v => [lit "System: " ++ v]
   | none => []) ++
  [lit "References:" ++ refsColumn ni.references] ++
  (match ni.signature with
   | some v => [lit "Sig: " ++ v]
   | none => [])

/-- A well-formed descriptor text whose reference carries no method tag and
whose store path ends in a non-whitespace character. -/
def wit3S : Str := lit "StorePath: /nix/store/abc-pkg\nURL: nar/x.nar.xz\nCompression: xz\nFileHash: fh11\nFileSize: 7\nNarHash: nh22\nNarSize: 9\nReferences: abc-pkg\n"

/-- The descriptor parsed from `wit3S`. -/
def wit3D : NarInfo where
  storePath := ⟨lit "/nix/store", ⟨lit "pkg", ⟨none, lit "abc"⟩⟩⟩
  url := lit "nar/x.nar.xz"
  compression := .xz
  fileHash := ⟨none, lit "fh11"⟩
  fileSize := 7
  narHash := ⟨none, lit "nh22"⟩
  narSize := 9
  deriver := none
  system := none
  references := [⟨lit "pkg", ⟨none, lit "abc"⟩⟩]
  signature := none

/-- The metadata store after inserting `wit3D` (whose file hash has no
method tag) under hash `"abc"` into an empty store. -/
def cex8Db : CacheDb :=
  ⟨[], [⟨entryFromNarInfo (lit "abc") wit3D, lit "http://upstream"⟩]⟩

/-- What `get_nar_info` returns from `cex8Db`: both hash methods have become
`Some ""` and the URL is recomputed from the file hash. -/
def cex8Out : NarInfo :=
  { wit3D with
      url := lit "nar/fh11.nar.xz"
      fileHash := ⟨some [], lit "fh11"⟩
      narHash := ⟨some [], lit "nh22"⟩ }

/-- The invariant the line parser maintains on the builder: every field
already present was produced by the corresponding value parser. -/
def NarInfoBWF (b : NarInfoB) : Prop :=
  (∀ sp, b.storePath = some sp → SpWF sp) ∧
  (∀ v, b.url = some v → ValWF v) ∧
  (∀ h, b.fileHash = some h → HashWF h) ∧
  (∀ n, b.fileSize = some n → n < 2 ^ 64) ∧
  (∀ h, b.narHash = some h → HashWF h) ∧
  (∀ n, b.narSize = some n → n < 2 ^ 64) ∧
  (∀ v w, b.deriver = some v → v = some w → ValWF w) ∧
  (∀ v w, b.system = some v → v = some w → ValWF w) ∧
  (∀ rs, b.references = some rs → ∀ r ∈ rs, DerivRefWF r) ∧
  (∀ v w, b.signature = some v → v = some w → ValWF w)

/-! ## Concrete instances for the codec claims -/

/-- A well-formed descriptor text whose single reference carries a
`sha256:` method tag. -/
def cex3S : Str := lit "StorePath: /nix/store/abc-pkg\nURL: nar/x.nar.xz\nCompression: xz\nFileHash: fh11\nFileSize: 7\nNarHash: nh22\nNarSize: 9\nReferences: sha256:abc-pkg\n"

/-- The descriptor parsed from `cex3S`. -/
def cex3D : NarInfo where
  storePath := ⟨lit "/nix/store", ⟨lit "pkg", ⟨none, lit "abc"⟩⟩⟩
  url := lit "nar/x.nar.xz"
  compression := .xz
  fileHash := ⟨none, lit "fh11"⟩
  fileSize := 7
  narHash := ⟨none, lit "nh22"⟩
  narSize := 9
  deriver := none
  system := none
  references := [⟨lit "pkg", ⟨some (lit "sha256"), lit "abc"⟩⟩]
  signature := none

/-- The metadata store after inserting `cex3D` (whose single reference
carries a `sha256:` method tag) under hash `"abc"` into an empty store. -/
def cex8Db2 : CacheDb :=
  ⟨[], [⟨entryFromNarInfo (lit "abc") cex3D, lit "http://upstream"⟩]⟩

/-- What `get_nar_info` returns from `cex8Db2`: the reference comes back
without its method tag, because the refs column stores `Derivation::name`. -/
def cex8Out2 : NarInfo :=
  { cex3D with
      url := lit "nar/fh11.nar.xz"
      fileHash := ⟨some [], lit "fh11"⟩
      narHash := ⟨some [], lit "nh22"⟩
      references := [⟨lit "pkg", ⟨none, lit "abc"⟩⟩] }

/-- What reparsing the rendering of `cex3D` yields: the reference's method
tag is gone. -/
def cex3D2 : NarInfo := { cex3D with references := [⟨lit "pkg", ⟨none, lit "abc"⟩⟩] }

/-- A descriptor text whose store path component ends in whitespace before
a trailing slash. -/
def cex3T : Str := lit "StorePath: /s/a-p \t/\nURL: u\nCompression: xz\nFileHash: f1\nFileSize: 7\nNarHash: n2\nNarSize: 9\nReferences:\n"

/-- The descriptor parsed from `cex3T` (its package name ends in a tab). -/
def cex3E : NarInfo where
  storePath := ⟨lit "/s", ⟨['p', ' ', '\t'], ⟨none, lit "a"⟩⟩⟩
  url := lit "u"
  compression := .xz
  fileHash := ⟨none, lit "f1"⟩
  fileSize := 7
  narHash := ⟨none, lit "n2"⟩
  narSize := 9
  deriver := none
  system := none
  references := []
  signature := none

/-- What reparsing the rendering of `cex3E` yields: the rendered path
`/s/a-p \t` is trimmed back to `/s/a-p`. -/
def cex3E2 : NarInfo := { cex3E with storePath := ⟨lit "/s", ⟨lit "p", ⟨none, lit "a"⟩⟩⟩ }

/-- The recognized top-level configuration keys. -/
def recognizedConfigKeys : List Str :=
  [lit "upstreams", lit "channel_url", lit "channels",
   lit "local_data_path", lit "database_max_connections"]

/-! ## Helper lemmas -/

end Nicacher

namespace Nicacher

theorem statusOfInt_toInt (s : Status) : statusOfInt (statusToInt s) = s := by
  cases s <;> rfl

theorem dbStatus_eq_none (db : CacheDb) (h : Str) :
    dbStatus db h = none ↔ db.cacheTbl.find? (fun r => r.1 = h) = none := by
  simp [dbStatus]

theorem find?_purge_none (l : List (Str × Int)) (h : Str) :
    (l.filter (fun r => ¬ (r.1 = h))).find? (fun r => decide (r.1 = h)) = none := by
  induction l with
  | nil => rfl
  | cons a l ih =>
    by_cases ha : a.1 = h <;> simp [List.filter_cons, ha, List.find?_cons, ih]

theorem dbStatus_purge (db : CacheDb) (h : Str) :
    dbStatus (dbPurgeCache db h) h = none := by
  simp [dbStatus, dbPurgeCache, find?_purge_none]

theorem find?_upd_self (l : List (Str × Int)) (h : Str) (v : Int)
    (hx : (l.find? (fun r => decide (r.1 = h))).isSome) :
    (l.map (fun r => if r.1 = h then (r.1, v) else r)).find?
      (fun r => decide (r.1 = h)) = some (h, v) := by
  induction l with
  | nil => simp [List.find?] at hx
  | cons a l ih =>
    by_cases ha : a.1 = h
    · simp [List.map_cons, List.find?_cons, ha]
    · simp only [List.find?_cons, ha, decide_eq_false, Bool.false_eq_true] at hx
      simp [List.map_cons, List.find?_cons, ha, ih hx]

theorem dbStatus_upd_self (db : CacheDb) (h : Str) (s s0 : Status)
    (hx : dbStatus db h = some s0) :
    dbStatus (dbUpdStatus db h s) h = some s := by
  unfold dbStatus at hx
  rcases hfind : db.cacheTbl.find? (fun r => decide (r.1 = h)) with _ | r
  · rw [hfind] at hx; simp at hx
  · have hsome : (db.cacheTbl.find? (fun r => decide (r.1 = h))).isSome := by
      rw [hfind]; rfl
    simp [dbStatus, dbUpdStatus, find?_upd_self db.cacheTbl h (statusToInt s) hsome,
      statusOfInt_toInt]

theorem find?_append_right (l1 l2 : List (Str × Int)) (p : Str × Int → Bool)
    (hn : l1.find? p = none) : (l1 ++ l2).find? p = l2.find? p := by
  simp [List.find?_append, hn]

theorem dbStatus_ins_self (db : CacheDb) (h : Str) (s : Status) (db2 : CacheDb)
    (hins : dbInsStatus db h s = some db2) :
    dbStatus db2 h = some s := by
  unfold dbInsStatus at hins
  rcases hf : db.cacheTbl.find? (fun r => decide (r.1 = h)) with _ | r
  · rw [hf] at hins
    simp only [Option.isSome_none, Bool.false_eq_true, if_false, Option.some_inj] at hins
    subst hins
    simp [dbStatus, find?_append_right _ _ _ hf, List.find?_cons, statusOfInt_toInt]
  · rw [hf] at hins; simp at hins

theorem narinfo_upd (db : CacheDb) (h : Str) (s : Status) :
    (dbUpdStatus db h s).narinfoTbl = db.narinfoTbl := rfl

theorem narinfo_ins_status (db : CacheDb) (h : Str) (s : Status) (db2 : CacheDb)
    (hins : dbInsStatus db h s = some db2) :
    db2.narinfoTbl = db.narinfoTbl := by
  unfold dbInsStatus at hins
  split at hins
  · simp at hins
  · simp only [Option.some_inj] at hins; subst hins; rfl

theorem cacheNarFetchPhase_log (dp : Str) (sys : Sys) (h : Str) (f : Bool)
    (ev : List Ev) (fr : Option (NarInfo × Str)) (dl : Bool) :
    ∃ suffix, (cacheNarFetchPhase dp sys h f ev fr dl).2.2 = ev ++ suffix := by
  unfold cacheNarFetchPhase cacheNarDownload
  repeat' split
  all_goals simp only [List.append_assoc, List.cons_append, List.nil_append]
  all_goals exact ⟨_, rfl⟩

/-! ## Claim C2 -/

/-- Claim C2: the first transaction of `CacheNar(h, force)` decides the
outcome exactly as specified: `Fetching` kills for any force; `Available`
kills when `force = false` and transitions to `Fetching` and proceeds when
`force = true`; `Purging` reschedules by 10 seconds when `force = true` and
kills when `force = false`; and every kill or reschedule outcome terminates
the job with no store write and no upstream fetch. -/
theorem claim2_decision :
    (∀ f, cacheNarDecide (some .fetching) f = .halt .kill) ∧
    cacheNarDecide (some .available) false = .halt .kill ∧
    cacheNarDecide (some .available) true = .goFetch ∧
    cacheNarDecide (some .purging) true = .halt (.reschedule 10) ∧
    cacheNarDecide (some .purging) false = .halt .kill ∧
    (∀ dp sys h f fr dl o, cacheNarDecide (dbStatus sys.db h) f = .halt o →
      cacheNar dp sys h f fr dl = (.ok o, sys, [])) ∧
    (∀ dp sys h fr dl, dbStatus sys.db h = some .available →
      ∃ tail, (cacheNar dp sys h true fr dl).2.2 = Ev.setStatus .fetching :: tail) := by
  refine ⟨fun f => by cases f <;> rfl, rfl, rfl, rfl, rfl, ?_, ?_⟩
  · intro dp sys h f fr dl o hd
    unfold cacheNar
    rw [hd]
  · intro dp sys h fr dl hav
    unfold cacheNar
    rw [hav]
    simp only [cacheNarDecide]
    obtain ⟨suf, hsuf⟩ := cacheNarFetchPhase_log dp
      { sys with db := dbUpdStatus sys.db h .fetching } h true
      [Ev.setStatus .fetching] fr dl
    exact ⟨suf, by simpa using hsuf⟩

/-- Witness for C2 at concrete stores: a `Fetching` row kills with no state
change and no fetch; an `Available` row with `force = true` proceeds after
writing `Fetching`. -/
theorem claim2_decision_witness :
    cacheNar (lit "/data") sysF2 (lit "h2") false none true = (.ok .kill, sysF2, []) ∧
    (∃ tail, (cacheNar (lit "/data") sysAv2 (lit "h2") true none true).2.2 =
      Ev.setStatus .fetching :: tail) :=
  ⟨claim2_decision.2.2.2.2.2.1 (lit "/data") sysF2 (lit "h2") false none true .kill (by decide),
   claim2_decision.2.2.2.2.2.2 (lit "/data") sysAv2 (lit "h2") none true (by decide)⟩

/-! ## Claim C1 -/

/-- Claim C1 counterexample: with an empty store, `CacheNar(h1, false)`
claims `Fetching` and then every upstream fails; the job returns a job
*error* (not `success`), the status *remains* `Fetching` (it is not set to
`NotAvailable`), and no descriptor row is created.  The claimed
`success`-and-`NotAvailable` outcome is therefore false on the code. -/
theorem claim1_counterexample :
    c1Run.1 = .err ∧
    dbStatus c1Run.2.1.db (lit "h1") = some .fetching ∧
    c1Run.2.1.db.narinfoTbl = [] ∧
    ¬ (c1Run.1 = .ok .success ∧
        dbStatus c1Run.2.1.db (lit "h1") = some .notAvailable) := by
  refine ⟨by decide, by decide, by decide, ?_⟩
  intro hcl
  exact absurd hcl.1 (by decide)

/-- Claim C1 (amended): when `CacheNar(h, force)` proceeds on the fetch
path and `FetchDescriptor(h)` fails because every upstream failed, the job
fails with a job error, leaves the status at `Fetching`, and creates no
descriptor row. -/
theorem claim1_amended (dp : Str) (sys : Sys) (h : Str) (f dl : Bool)
    (hgo : cacheNarDecide (dbStatus sys.db h) f = .goFetch) :
    (cacheNar dp sys h f none dl).1 = .err ∧
    dbStatus (cacheNar dp sys h f none dl).2.1.db h = some .fetching ∧
    (cacheNar dp sys h f none dl).2.1.db.narinfoTbl = sys.db.narinfoTbl := by
  unfold cacheNar
  rw [hgo]
  rcases hst : dbStatus sys.db h with _ | s
  · rcases hins : dbInsStatus sys.db h .fetching with _ | db2
    · exfalso
      unfold dbInsStatus at hins
      rw [(dbStatus_eq_none sys.db h).mp hst] at hins
      simp at hins
    · simp only [Option.map_some]
      exact ⟨rfl, dbStatus_ins_self sys.db h .fetching db2 hins,
        narinfo_ins_status sys.db h .fetching db2 hins⟩
  · exact ⟨rfl, dbStatus_upd_self sys.db h .fetching s hst, rfl⟩

/-- Witness for the amended C1 at a concrete store (status
`NotAvailable`, `force = true`). -/
theorem claim1_amended_witness :
    (cacheNar (lit "/data") sysNA1 (lit "h1") true none true).1 = .err ∧
    dbStatus (cacheNar (lit "/data") sysNA1 (lit "h1") true none true).2.1.db
      (lit "h1") = some .fetching ∧
    (cacheNar (lit "/data") sysNA1 (lit "h1") true none true).2.1.db.narinfoTbl =
      sysNA1.db.narinfoTbl :=
  claim1_amended (lit "/data") sysNA1 (lit "h1") true true (by decide)

/-! ## Claim C4 -/

/-- Claim C4 counterexample: `request_nar_file_raw` fans out over *all*
configured upstreams.  With upstreams `a` and `b` and the archive served
only by `b`, the function performs two GETs, contacting upstream `a` even
though `b` is the upstream that serves (and previously served) the
descriptor — refuting "a single GET against the one upstream … and never
contacts any other upstream". -/
theorem claim4_counterexample :
    c4Run.1 = [lit "https://a/nar/f.nar.xz", lit "https://b/nar/f.nar.xz"] ∧
    c4Run.2 = some (lit "https://b/nar/f.nar.xz") ∧
    c4Run.1.length ≠ 1 ∧
    lit "https://a/nar/f.nar.xz" ∈ c4Run.1 := by
  refine ⟨by decide, by decide, by decide, by decide⟩

/-- Claim C4 (amended): the archive fetch iterates over the configured
upstreams in order, GETs `<base>/<url_path>` at each until one succeeds,
returns the first success, and the contacted URLs are exactly the failing
ones up to and including the first success (all of them when every
upstream fails). -/
theorem fanout_spec (ups : List Str) (urlPath : Str) (ok : Str → Bool) :
    (upstreamFanout ups urlPath ok).2 =
      (ups.map (fun u => urlJoin u urlPath)).find? ok ∧
    (upstreamFanout ups urlPath ok).1 =
      (ups.map (fun u => urlJoin u urlPath)).takeWhile (fun u => ! ok u) ++
        ((ups.map (fun u => urlJoin u urlPath)).dropWhile (fun u => ! ok u)).take 1 := by
  induction ups with
  | nil => exact ⟨rfl, rfl⟩
  | cons u rest ih =>
    rcases hok : ok (urlJoin u urlPath) with _ | _
    · have hstep : upstreamFanout (u :: rest) urlPath ok =
          (urlJoin u urlPath :: (upstreamFanout rest urlPath ok).1,
            (upstreamFanout rest urlPath ok).2) := by
        simp [upstreamFanout, hok]
      rw [hstep]
      simp [List.find?_cons, hok, List.takeWhile_cons, List.dropWhile_cons, ih.1, ih.2]
    · have hstep : upstreamFanout (u :: rest) urlPath ok =
          ([urlJoin u urlPath], some (urlJoin u urlPath)) := by
        simp [upstreamFanout, hok]
      rw [hstep]
      simp [List.find?_cons, hok, List.takeWhile_cons, List.dropWhile_cons]

theorem claim4_amended (ups : List Str) (urlPath : Str) (ok : Str → Bool) :
    (requestNarFileRaw ups urlPath ok).2 =
      (ups.map (fun u => urlJoin u urlPath)).find? ok ∧
    (requestNarFileRaw ups urlPath ok).1 =
      (ups.map (fun u => urlJoin u urlPath)).takeWhile (fun u => ! ok u) ++
        ((ups.map (fun u => urlJoin u urlPath)).dropWhile (fun u => ! ok u)).take 1 := by
  unfold requestNarFileRaw
  exact fanout_spec ups urlPath ok

/-! ## Claim C5 -/

/-- Claim C5 counterexample: a `CacheNar` run that proceeds past its first
transaction writes only the `Fetching` status in that transaction and
never stamps `last_cached` — the job log contains the status write and the
upstream fetch but no `set_last_cached` call. -/
theorem claim5_counterexample :
    c5Run.2.2 = [Ev.setStatus .fetching, Ev.fetchInfoUpstream] ∧
    Ev.setStatus .fetching ∈ c5Run.2.2 ∧
    Ev.setLastCached ∉ c5Run.2.2 := by
  refine ⟨by decide, by decide, by decide⟩

/-- Claim C5 (amended): `cache_nar` and `purge_nar` never invoke
`set_last_cached`; no run of either job, under any store, flags, or
network outcome, contains a `last_cached` stamp. -/
theorem claim5_amended (dp : Str) (sys : Sys) (h : Str) (f dl : Bool)
    (fr : Option (NarInfo × Str)) :
    Ev.setLastCached ∉ (cacheNar dp sys h f fr dl).2.2 ∧
    Ev.setLastCached ∉ (purgeNar dp sys h f).2.2 := by
  constructor
  · unfold cacheNar cacheNarFetchPhase cacheNarDownload
    repeat' split
    all_goals simp
  · unfold purgeNar
    rcases hd : purgeNarDecide (dbStatus sys.db h) f with o | b
    · simp
    · rcases b with _ | _
      · simp
      · rcases hg : dbGetNarFilePath (dbUpdStatus sys.db h .purging) dp h with e | op
        · simp [hg]
        · rcases op with _ | path
          · simp [hg]
          · by_cases hmem : path ∈ sys.files <;> simp [hg, hmem]

/-! ## Claim C6 -/

theorem purgeNarDecide_halt_ne_success (st : Option Status) (f : Bool) (o : JobOutcome)
    (hd : purgeNarDecide st f = .halt o) : o ≠ .success := by
  rcases st with _ | st
  · cases f <;> (cases hd; decide)
  · cases st <;> cases f <;> first
      | (cases hd; decide)
      | (intro hcon; cases hd)

theorem purgeNar_status_none (dp : Str) (sys : Sys) (h : Str) (f : Bool)
    (hnone : dbStatus sys.db h = none) :
    purgeNar dp sys h f = (.ok .kill, sys, []) := by
  unfold purgeNar
  rw [hnone]
  cases f <;> rfl

theorem purgeNar_success_db (dp : Str) (sys : Sys) (h : Str) (f : Bool)
    (sys1 : Sys) (ev : List Ev)
    (hrun : purgeNar dp sys h f = (.ok .success, sys1, ev)) :
    sys1.db = dbPurgeCache (dbUpdStatus sys.db h .purging) h := by
  unfold purgeNar at hrun
  split at hrun
  · rename_i o hd
    simp only [Prod.mk.injEq, JobRes.ok.injEq] at hrun
    exact absurd hrun.1 (purgeNarDecide_halt_ne_success _ _ _ hd)
  · rename_i b hd
    rcases b with _ | _
    · simp only [Bool.false_eq_true, if_false] at hrun
      simp only [Prod.mk.injEq] at hrun
      rw [← hrun.2.1]
    · simp only [if_true] at hrun
      split at hrun
      · simp at hrun
      · split at hrun
        · simp at hrun
        · split at hrun
          · simp only [Prod.mk.injEq] at hrun
            rw [← hrun.2.1]
          · simp at hrun

/-- Claim C6: purging is idempotent — if `PurgeNar(h, force=true)` runs to
completion (returns `success`), a second `PurgeNar(h, force=true)` run kills
immediately, changing neither the metadata store nor the archive
directory. -/
theorem claim6_purge_idempotent (dp : Str) (sys : Sys) (h : Str)
    (sys1 : Sys) (ev : List Ev)
    (hrun : purgeNar dp sys h true = (.ok .success, sys1, ev)) :
    purgeNar dp sys1 h true = (.ok .kill, sys1, []) := by
  have hdb := purgeNar_success_db dp sys h true sys1 ev hrun
  have hnone : dbStatus sys1.db h = none := by
    rw [hdb]
    exact dbStatus_purge _ h
  exact purgeNar_status_none dp sys1 h true hnone

/-- Witness for C6: a purge from a concrete `NotAvailable` row succeeds,
and the second run kills with the state unchanged. -/
theorem claim6_witness :
    purgeNar (lit "/data") ⟨⟨[(lit "h6", 0)], []⟩, []⟩ (lit "h6") true =
      (.ok .success, ⟨⟨[], []⟩, []⟩, [Ev.setStatus .purging]) ∧
    purgeNar (lit "/data") ⟨⟨[], []⟩, []⟩ (lit "h6") true =
      (.ok .kill, ⟨⟨[], []⟩, []⟩, []) :=
  ⟨by decide,
   claim6_purge_idempotent (lit "/data") ⟨⟨[(lit "h6", 0)], []⟩, []⟩ (lit "h6")
     ⟨⟨[], []⟩, []⟩ [Ev.setStatus .purging] (by decide)⟩

/-! ## Claim C7 -/

theorem filter_upd_cancel (l : List (Str × Int)) (h : Str) (v : Int) :
    ((l.map (fun r => if r.1 = h then (r.1, v) else r)).filter
      (fun r => ¬ (r.1 = h))) = l.filter (fun r => ¬ (r.1 = h)) := by
  induction l with
  | nil => rfl
  | cons a l ih =>
    simp only [decide_not] at ih
    by_cases ha : a.1 = h <;>
      simp [List.map_cons, List.filter_cons, ha, ih]

theorem purgeNar_success_tables (dp : Str) (sys : Sys) (h : Str) (f : Bool)
    (sys1 : Sys) (ev : List Ev)
    (hrun : purgeNar dp sys h f = (.ok .success, sys1, ev)) :
    sys1.db.narinfoTbl = sys.db.narinfoTbl ∧
    sys1.db.cacheTbl = sys.db.cacheTbl.filter (fun r => ¬ (r.1 = h)) := by
  have hdb := purgeNar_success_db dp sys h f sys1 ev hrun
  rw [hdb]
  exact ⟨rfl, filter_upd_cancel sys.db.cacheTbl h (statusToInt .purging)⟩

/-- Claim C7: a successful purge deletes only `h`'s lifecycle row — the
descriptor table is untouched and only `h`'s rows leave the `cache` table —
and no store operation except a forced `insert_nar_info` (SQL `REPLACE`)
removes or modifies an existing descriptor row: status writes and the purge
leave the descriptor table unchanged, and an unforced insert only appends. -/
theorem claim7_frame :
    (∀ dp sys h f sys1 ev, purgeNar dp sys h f = (.ok .success, sys1, ev) →
      sys1.db.narinfoTbl = sys.db.narinfoTbl ∧
      sys1.db.cacheTbl = sys.db.cacheTbl.filter (fun r => ¬ (r.1 = h))) ∧
    (∀ db h s, (dbUpdStatus db h s).narinfoTbl = db.narinfoTbl) ∧
    (∀ db h s db2, dbInsStatus db h s = some db2 → db2.narinfoTbl = db.narinfoTbl) ∧
    (∀ db h, (dbPurgeCache db h).narinfoTbl = db.narinfoTbl) ∧
    (∀ db h ni up db2, dbInsertNarInfo db h ni up false = some db2 →
      db2.narinfoTbl = db.narinfoTbl ++ [⟨entryFromNarInfo h ni, up⟩]) := by
  refine ⟨fun dp sys h f sys1 ev hr => purgeNar_success_tables dp sys h f sys1 ev hr,
    fun _ _ _ => rfl, narinfo_ins_status, fun _ _ => rfl, ?_⟩
  intro db h ni up db2 hins
  unfold dbInsertNarInfo at hins
  simp only [Bool.false_eq_true, if_false] at hins
  split at hins
  · simp at hins
  · simp only [Option.some_inj] at hins
    rw [← hins]

/-- Witness for C7: a purge from a concrete `NotAvailable` row with a
populated descriptor table leaves the descriptor row in place, and a
concrete unforced insert only appends. -/
theorem claim7_frame_witness :
    ((purgeNar (lit "/data")
        ⟨⟨[(lit "h7", 0)], [⟨entryFromNarInfo (lit "h7") d7, lit "https://u/"⟩]⟩, []⟩
        (lit "h7") true).2.1.db.narinfoTbl =
      [⟨entryFromNarInfo (lit "h7") d7, lit "https://u/"⟩]) ∧
    ((⟨[], [⟨entryFromNarInfo (lit "h7") d7, lit "https://u/"⟩]⟩ : CacheDb).narinfoTbl =
      ([] : List NarInfoRow) ++ [⟨entryFromNarInfo (lit "h7") d7, lit "https://u/"⟩]) := by
  constructor
  · have hres := (claim7_frame.1 (lit "/data")
      ⟨⟨[(lit "h7", 0)], [⟨entryFromNarInfo (lit "h7") d7, lit "https://u/"⟩]⟩, []⟩
      (lit "h7") true
      ⟨⟨[], [⟨entryFromNarInfo (lit "h7") d7, lit "https://u/"⟩]⟩, []⟩
      [Ev.setStatus .purging] (by decide)).1
    exact hres
  · exact claim7_frame.2.2.2.2 ⟨[], []⟩ (lit "h7") d7 (lit "https://u/")
      ⟨[], [⟨entryFromNarInfo (lit "h7") d7, lit "https://u/"⟩]⟩ (by decide)

/-! ## Claim C9 -/

theorem configApplyKV_unknown (b : ConfigB) (k : Str) (v : TomlValue)
    (hk : k ∉ recognizedConfigKeys) :
    configApplyKV b (k, v) = .error (lit "unknown field " ++ k) := by
  simp only [recognizedConfigKeys, List.mem_cons, List.mem_singleton, not_or] at hk
  obtain ⟨h1, h2, h3, h4, h5, _⟩ := hk
  simp [configApplyKV, h1, h2, h3, h4, h5]

theorem configFold_error (doc : List (Str × TomlValue)) (k : Str) (v : TomlValue)
    (hmem : (k, v) ∈ doc) (hk : k ∉ recognizedConfigKeys) :
    ∀ b, ∃ e, doc.foldlM configApplyKV b = Except.error e := by
  induction doc with
  | nil => cases hmem
  | cons hd rest ih =>
    intro b
    rcases List.mem_cons.mp hmem with heq | hrest
    · rcases hd with ⟨k0, v0⟩
      obtain ⟨hk0, hv0⟩ := Prod.mk.injEq k v k0 v0 ▸ heq
      subst hk0
      refine ⟨lit "unknown field " ++ k, ?_⟩
      simp [List.foldlM_cons, configApplyKV_unknown b k v0 hk, bind, Except.bind]
    · rcases happ : configApplyKV b hd with e | b2
      · exact ⟨e, by simp [List.foldlM_cons, happ, bind, Except.bind]⟩
      · obtain ⟨e, he⟩ := ih hrest b2
        exact ⟨e, by simp [List.foldlM_cons, happ, he, bind, Except.bind]⟩

/-- Claim C9: a TOML configuration containing a key outside the recognized
set fails to deserialize (`deny_unknown_fields`), and `Config::get` then
falls back to the built-in defaults, so none of the file's settings take
effect. -/
theorem claim9_unknown_key (doc : List (Str × TomlValue)) (k : Str) (v : TomlValue)
    (hmem : (k, v) ∈ doc) (hk : k ∉ recognizedConfigKeys) :
    (∃ e, tomlDecodeConfig doc = .error e) ∧ configGet (some doc) = configDefault := by
  obtain ⟨e, he⟩ := configFold_error doc k v hmem hk ({} : ConfigB)
  refine ⟨⟨e, ?_⟩, ?_⟩
  · simp [tomlDecodeConfig, he, Except.map]
  · simp [configGet, tomlDecodeConfig, he, Except.map]

/-- Witness for C9 on the concrete one-entry document with key `bogus`. -/
theorem claim9_unknown_key_witness :
    (∃ e, tomlDecodeConfig badDoc = .error e) ∧
    configGet (some badDoc) = configDefault :=
  claim9_unknown_key badDoc (lit "bogus") (.vInt 1)
    (by simp [badDoc]) (by decide)

/-! ## Claim C10 -/

theorem set_get_self (l : List (Option Status)) (i : Nat) (x : Option Status)
    (hx : l.get? i = some x) : l.set i x = l := by
  induction l generalizing i with
  | nil => cases hx
  | cons a t ih =>
    rcases i with _ | i
    · simp only [List.get?] at hx
      cases hx
      rfl
    · simp only [List.get?] at hx
      simp [List.set, ih i hx]

theorem setW_claim_frame (w : World) (i : Nat) (wk wk2 : WorkerSt)
    (hget : w.ws.get? i = some wk) (hcl : wk2.claim = wk.claim) :
    (setW w.ws i wk2).map (fun x => x.claim) = w.ws.map (fun x => x.claim) := by
  rw [setW, List.map_set, hcl]
  have hx : (w.ws.map (fun x => x.claim)).get? i = some wk.claim := by
    rw [List.get?_map, hget]
    rfl
  exact set_get_self _ _ _ hx

/-- Claim C10 counterexample: from the initial world `c10w0` (status
`OnlyInfo`, descriptor row present, no claims held) the schedule
`c10sched` is a legal interleaving of `jobs.rs` steps after which
workers 1 and 2 *both* hold a `Purging` claim — two workers are
simultaneously in-flight owners of the same hash, refuting
at-most-one-in-flight. -/
theorem claim10_counterexample :
    holdersCount c10w0 = 0 ∧
    holdersCount (runW c10w0 c10sched) = 2 ∧
    (runW c10w0 c10sched).ws.map (fun x => x.claim) =
      [none, some .purging, some .purging] ∧
    ¬ holdersCount (runW c10w0 c10sched) ≤ 1 := by
  refine ⟨by decide, by decide, by decide, by decide⟩

/-- Claim C10 (amended): while a hash's status is `Fetching` or `Purging`,
no job acquires a claim — the guard of `cache_nar` kills (or, for a forced
job over `Purging`/`Fetching`, reschedules by 10 s), the guard of
`purge_nar` likewise, and a worker stepping through its first transaction
in such a state changes neither the set of held claims nor the status.
(The invariant itself fails only through the `OnlyInfo` window, as the
counterexample shows.) -/
theorem claim10_amended :
    (∀ f, cacheNarDecide (some .fetching) f = .halt .kill ∧
      cacheNarDecide (some .purging) f = .halt (if f then .reschedule 10 else .kill) ∧
      purgeNarDecide (some .fetching) f = .halt (if f then .reschedule 10 else .kill) ∧
      purgeNarDecide (some .purging) f = .halt .kill) ∧
    (∀ w i wk, w.ws.get? i = some wk → wk.pc = .pcInit →
      (w.status = some .fetching ∨ w.status = some .purging) →
      (stepWorker w i).ws.map (fun x => x.claim) = w.ws.map (fun x => x.claim) ∧
      (stepWorker w i).status = w.status) := by
  constructor
  · intro f
    cases f <;> exact ⟨rfl, rfl, rfl, rfl⟩
  · intro w i wk hget hpc hst
    rcases hpu : wk.isPurge with _ | _ <;>
      rcases hf : wk.isForce with _ | _ <;>
        rcases hst with h | h <;>
          simp only [stepWorker, hget, hpc, hpu, hf, h, Bool.false_eq_true, if_false,
            if_true, cacheNarDecide, purgeNarDecide] <;>
          exact ⟨setW_claim_frame w i wk _ hget rfl, by trivial⟩

/-- Witness for the amended C10: one `CacheNar` worker stepping its guard
while the status is `Fetching` leaves the claims and the status alone. -/
theorem claim10_amended_witness :
    (stepWorker ⟨some .fetching, false, [⟨false, false, true, .pcInit, none⟩]⟩ 0).ws.map
      (fun x => x.claim) =
      (⟨some .fetching, false, [⟨false, false, true, .pcInit, none⟩]⟩ : World).ws.map
        (fun x => x.claim) ∧
    (stepWorker ⟨some .fetching, false, [⟨false, false, true, .pcInit, none⟩]⟩ 0).status =
      some .fetching :=
  claim10_amended.2 ⟨some .fetching, false, [⟨false, false, true, .pcInit, none⟩]⟩ 0
    ⟨false, false, true, .pcInit, none⟩ rfl rfl (Or.inl rfl)

/-! ## Claim C3: counterexample -/

/-- Claim C3 counterexample: two descriptors that parsed successfully but
do not survive a render/reparse cycle.  `cex3D` (from `cex3S`) has a
reference with a `sha256:` method tag, which `Derivation::name` drops on
display, so the reparse differs in the reference hash; `cex3E` (from
`cex3T`) has a store-path package ending in a tab, which the parser's
`trim` removes on reparse.  Under the specification's equality (hashes
equal iff method and digest both equal, store paths by full path string)
`parse(format(d)) = d` fails for both. -/
theorem claim3_counterexample :
    narInfoFromStr cex3S = .ok cex3D ∧
    narInfoFromStr (narInfoToStr cex3D) = .ok cex3D2 ∧
    narInfoBeq cex3D cex3D2 = false ∧ cex3D ≠ cex3D2 ∧
    narInfoFromStr cex3T = .ok cex3E ∧
    narInfoFromStr (narInfoToStr cex3E) = .ok cex3E2 ∧
    narInfoBeq cex3E cex3E2 = false ∧ cex3E ≠ cex3E2 :=
  ⟨rfl, rfl, rfl, by decide, rfl, rfl, rfl, by decide⟩

/-! ## Character and trim lemmas -/

theorem ws_of_alnum {c : Char} (h : rustIsAlnum c = true) : rustIsWs c = false := by
  by_contra hw
  rw [Bool.not_eq_false] at hw
  have hc : ((c = ' ' ∨ c = '\t') ∨ c = '\r') ∨ c = '\n' := by
    simpa [rustIsWs, Char.isWhitespace] using hw
  rcases hc with ((rfl | rfl) | rfl) | rfl <;> exact absurd h (by decide)

theorem alnum_ne {c cc : Char} (h : rustIsAlnum c = true)
    (hcc : rustIsAlnum cc = false) : c ≠ cc := by
  intro he
  subst he
  rw [h] at hcc
  exact absurd hcc (by decide)

theorem not_mem_of_all_alnum {s : Str} {cc : Char}
    (hall : s.all rustIsAlnum = true) (hcc : rustIsAlnum cc = false) : cc ∉ s := by
  intro hmem
  have := List.all_eq_true.mp hall cc hmem
  rw [hcc] at this
  exact absurd this (by decide)

theorem dropWhile_head_not (p : Char → Bool) (s : Str) {c : Char}
    (h : (s.dropWhile p).head? = some c) : p c = false := by
  induction s with
  | nil => cases h
  | cons a t ih =>
    rw [List.dropWhile_cons] at h
    by_cases hp : p a = true
    · rw [if_pos hp] at h
      exact ih h
    · rw [if_neg hp] at h
      cases h
      exact Bool.not_eq_true _ ▸ hp

theorem dropWhile_eq_self_of_head (p : Char → Bool) (s : Str)
    (h : ∀ c, s.head? = some c → p c = false) : s.dropWhile p = s := by
  cases s with
  | nil => rfl
  | cons a t =>
    rw [List.dropWhile_cons, if_neg]
    rw [h a rfl]
    exact Bool.false_ne_true

theorem trim_eq_self {s : Str} (hh : HeadNotWs s) (hl : LastNotWs s) :
    trimStr s = s := by
  unfold trimStr
  rw [dropWhile_eq_self_of_head rustIsWs s hh]
  rw [dropWhile_eq_self_of_head rustIsWs s.reverse
    (fun c hc => hl c (by rwa [List.head?_reverse] at hc))]
  exact List.reverse_reverse s

theorem trim_cons_ws {c : Char} (s : Str) (hc : rustIsWs c = true) :
    trimStr (c :: s) = trimStr s := by
  unfold trimStr
  rw [List.dropWhile_cons, if_pos hc]

theorem trim_headNotWs (s : Str) : HeadNotWs (trimStr s) := by
  intro c hc
  unfold trimStr at hc
  set t := s.dropWhile rustIsWs with ht
  rcases hy : (t.reverse.dropWhile rustIsWs).reverse with _ | ⟨y, ys⟩
  · rw [hy] at hc
    cases hc
  · rw [hy] at hc
    cases hc
    have hdec : t.reverse.takeWhile rustIsWs ++ t.reverse.dropWhile rustIsWs = t.reverse :=
      List.takeWhile_append_dropWhile rustIsWs t.reverse
    have htt : t = (t.reverse.dropWhile rustIsWs).reverse ++
        (t.reverse.takeWhile rustIsWs).reverse := by
      rw [← List.reverse_append, hdec, List.reverse_reverse]
    have hhead : t.head? = some c := by
      rw [htt, hy]
      rfl
    rw [ht] at hhead
    exact dropWhile_head_not rustIsWs s hhead

theorem trim_lastNotWs (s : Str) : LastNotWs (trimStr s) := by
  intro c hc
  unfold trimStr at hc
  rw [List.getLast?_reverse] at hc
  exact dropWhile_head_not rustIsWs _ hc

theorem trim_idem (s : Str) : trimStr (trimStr s) = trimStr s :=
  trim_eq_self (trim_headNotWs s) (trim_lastNotWs s)

theorem mem_of_mem_trim {c : Char} {s : Str} (h : c ∈ trimStr s) : c ∈ s := by
  unfold trimStr at h
  rw [List.mem_reverse] at h
  have h2 := (List.dropWhile_sublist rustIsWs).mem h
  rw [List.mem_reverse] at h2
  exact (List.dropWhile_sublist rustIsWs).mem h2

/-! ## split_once and split lemmas -/

theorem splitOnce_eq {c : Char} {s a b : Str}
    (h : splitOnceChar c s = some (a, b)) : s = a ++ c :: b ∧ c ∉ a := by
  induction s generalizing a b with
  | nil => cases h
  | cons x xs ih =>
    unfold splitOnceChar at h
    by_cases hx : x = c
    · rw [if_pos hx] at h
      cases h
      subst hx
      exact ⟨rfl, List.not_mem_nil x⟩
    · rw [if_neg hx] at h
      rcases Option.map_eq_some'.mp h with ⟨⟨p1, p2⟩, hp, he⟩
      cases he
      obtain ⟨hs, hna⟩ := ih hp
      refine ⟨by rw [List.cons_append, ← hs], ?_⟩
      intro hmem
      rcases List.mem_cons.mp hmem with he2 | hm2
      · exact hx he2.symm
      · exact hna hm2

theorem splitOnce_append (c : Char) (k rest : Str) (hk : c ∉ k) :
    splitOnceChar c (k ++ c :: rest) = some (k, rest) := by
  induction k with
  | nil =>
    rw [List.nil_append]
    unfold splitOnceChar
    rw [if_pos rfl]
  | cons x xs ih =>
    have hx : ¬ (x = c) := fun he => hk (by rw [← he]; exact List.mem_cons_self x xs)
    rw [List.cons_append]
    unfold splitOnceChar
    rw [if_neg hx, ih (fun hm => hk (List.mem_cons_of_mem x hm))]
    rfl

theorem splitOnce_none (c : Char) (s : Str) (h : c ∉ s) :
    splitOnceChar c s = none := by
  induction s with
  | nil => rfl
  | cons x xs ih =>
    unfold splitOnceChar
    rw [if_neg (fun he => h (by rw [← he]; exact List.mem_cons_self x xs)),
      ih (fun hm => h (List.mem_cons_of_mem x hm))]
    rfl

theorem splitOnChar_ne_nil (c : Char) (s : Str) : splitOnChar c s ≠ [] := by
  cases s with
  | nil => exact fun h => by cases h
  | cons x xs =>
    unfold splitOnChar
    by_cases hx : x = c
    · rw [if_pos hx]
      exact fun h => by cases h
    · rw [if_neg hx]
      rcases hsp : splitOnChar c xs with _ | ⟨t, ts⟩
      · exact fun h => by cases h
      · exact fun h => by cases h

theorem splitOnChar_append (c : Char) (l rest : Str) (hl : c ∉ l) :
    splitOnChar c (l ++ c :: rest) = l :: splitOnChar c rest := by
  induction l with
  | nil =>
    rw [List.nil_append]
    simp only [splitOnChar]
    rw [if_pos trivial]
  | cons x xs ih =>
    have hx : ¬ (x = c) := fun he => hl (by rw [← he]; exact List.mem_cons_self x xs)
    rw [List.cons_append]
    simp only [splitOnChar]
    rw [if_neg hx, ih (fun hm => hl (List.mem_cons_of_mem x hm))]

theorem splitOnChar_no_sep (c : Char) (s : Str) :
    ∀ l ∈ splitOnChar c s, c ∉ l := by
  induction s with
  | nil =>
    intro l hl
    unfold splitOnChar at hl
    rw [List.mem_singleton] at hl
    subst hl
    exact List.not_mem_nil c
  | cons x xs ih =>
    intro l hl
    unfold splitOnChar at hl
    by_cases hx : x = c
    · rw [if_pos hx] at hl
      rcases List.mem_cons.mp hl with he | hm
      · subst he
        exact List.not_mem_nil c
      · exact ih l hm
    · rw [if_neg hx] at hl
      rcases hsp : splitOnChar c xs with _ | ⟨t, ts⟩
      · exact absurd hsp (splitOnChar_ne_nil c xs)
      · rw [hsp] at hl
        rcases List.mem_cons.mp hl with he | hm
        · subst he
          intro hmem
          rcases List.mem_cons.mp hmem with he2 | hm2
          · exact hx he2.symm
          · exact ih t (by rw [hsp]; exact List.mem_cons_self t ts) hm2
        · exact ih l (by rw [hsp]; exact List.mem_cons_of_mem t hm)

/-! ## rustLines lemmas -/

theorem splitOnChar_flat (ls : List Str) (h : ∀ l ∈ ls, '\n' ∉ l) :
    splitOnChar '\n' (ls.flatMap (fun l => l ++ ['\n'])) = ls ++ [[]] := by
  induction ls with
  | nil => rfl
  | cons l rest ih =>
    rw [List.flatMap_cons, List.append_assoc, List.singleton_append,
      splitOnChar_append '\n' l _ (h l (List.mem_cons_self l rest))]
    rw [ih (fun x hx => h x (List.mem_cons_of_mem l hx))]
    rfl

theorem rustLines_flat (ls : List Str)
    (h : ∀ l ∈ ls, '\n' ∉ l ∧ l.getLast? ≠ some '\r') :
    rustLines (ls.flatMap (fun l => l ++ ['\n'])) = ls := by
  have hlast : (ls ++ [([] : Str)]).getLast? = some [] := by
    rw [List.getLast?_append]
    rfl
  unfold rustLines
  rw [splitOnChar_flat ls (fun l hl => (h l hl).1)]
  show (if (ls ++ [([] : Str)]).getLast? = some [] then (ls ++ [([] : Str)]).dropLast
    else ls ++ [([] : Str)]).map stripCr = ls
  rw [if_pos hlast, List.dropLast_concat]
  have : ∀ l ∈ ls, stripCr l = l := by
    intro l hl
    unfold stripCr
    rw [if_neg (h l hl).2]
  calc ls.map stripCr = ls.map id := List.map_congr_left this
    _ = ls := List.map_id ls

theorem lines_no_nl (s : Str) : ∀ l ∈ rustLines s, '\n' ∉ l := by
  intro l hl
  unfold rustLines at hl
  rcases List.mem_map.mp hl with ⟨l0, hl0, he⟩
  have hl0m : l0 ∈ splitOnChar '\n' s := by
    by_cases hc : (splitOnChar '\n' s).getLast? = some []
    · rw [if_pos hc] at hl0
      exact (List.dropLast_sublist _).mem hl0
    · rw [if_neg hc] at hl0
      exact hl0
  have hnl : '\n' ∉ l0 := splitOnChar_no_sep '\n' s l0 hl0m
  subst he
  intro hmem
  unfold stripCr at hmem
  by_cases hcr : l0.getLast? = some '\r'
  · rw [if_pos hcr] at hmem
    exact hnl ((List.dropLast_sublist l0).mem hmem)
  · rw [if_neg hcr] at hmem
    exact hnl hmem

/-! ## Decimal rendering round-trip (`usize` values) -/

theorem parseUsize_cons_ne_plus (c : Char) (cs : List Char) (hc : c ≠ '+') :
    parseUsize (c :: cs) =
      (if (c :: cs : List Char) = [] then none
       else if (c :: cs).all Char.isDigit then
         let v := (c :: cs).foldl (fun a c => 10 * a + (c.toNat - 48)) 0
         if v < 2 ^ 64 then some v else none
       else none) := by
  unfold parseUsize
  split
  · next r heq =>
    exact absurd (List.cons.injEq .. ▸ congrArg id heq) (by simp [hc])
  · rfl

theorem digitsLE_foldr (fuel : Nat) : ∀ n, n ≤ fuel →
    (natDigitsLE fuel n).foldr (fun d a => 10 * a + d) 0 = n := by
  induction fuel with
  | zero =>
    intro n hn
    interval_cases n
    rfl
  | succ f ih =>
    intro n hn
    match n with
    | 0 => rfl
    | m + 1 =>
      have hdiv : (m + 1) / 10 ≤ f := by
        have := Nat.div_lt_self (Nat.succ_pos m) (show 1 < 10 by decide)
        omega
      simp only [natDigitsLE, List.foldr_cons]
      rw [ih _ hdiv]
      omega

theorem digitsLE_lt (fuel : Nat) : ∀ n, ∀ d ∈ natDigitsLE fuel n, d < 10 := by
  induction fuel with
  | zero =>
    intro n d hd
    simp [natDigitsLE] at hd
  | succ f ih =>
    intro n d hd
    match n with
    | 0 => simp [natDigitsLE] at hd
    | m + 1 =>
      simp only [natDigitsLE, List.mem_cons] at hd
      rcases hd with h | h
      · subst h
        exact Nat.mod_lt _ (by decide)
      · exact ih _ d h

theorem digitsLE_ne_nil (f m : Nat) : natDigitsLE (f + 1) (m + 1) ≠ [] := by
  simp [natDigitsLE]

theorem digitChar_isDigit (d : Nat) (h : d < 10) : (digitChar d).isDigit = true := by
  interval_cases d <;> decide

theorem digitChar_toNat (d : Nat) (h : d < 10) : (digitChar d).toNat - 48 = d := by
  interval_cases d <;> decide

theorem foldr_digit_eq (ds : List Nat) (h : ∀ d ∈ ds, d < 10) :
    ds.foldr (fun d a => 10 * a + ((digitChar d).toNat - 48)) 0
      = ds.foldr (fun d a => 10 * a + d) 0 := by
  induction ds with
  | nil => rfl
  | cons d t ih =>
    simp only [List.foldr_cons]
    rw [ih (fun x hx => h x (List.mem_cons_of_mem d hx)),
      digitChar_toNat d (h d (List.mem_cons_self d t))]

theorem foldl_digits (ds : List Nat) (h : ∀ d ∈ ds, d < 10) :
    (ds.reverse.map digitChar).foldl (fun a c => 10 * a + (c.toNat - 48)) 0
      = ds.foldr (fun d a => 10 * a + d) 0 := by
  rw [List.map_reverse, List.foldl_reverse, List.foldr_map]
  exact foldr_digit_eq ds h

theorem parseUsize_natToChars (n : Nat) (h : n < 2 ^ 64) :
    parseUsize (natToChars n) = some n := by
  by_cases h0 : n = 0
  · subst h0
    rfl
  · match n, h0 with
    | m + 1, _ =>
      have hlt := digitsLE_lt (m + 1) (m + 1)
      have hall : ((natDigitsLE (m + 1) (m + 1)).reverse.map digitChar).all Char.isDigit = true := by
        rw [List.all_eq_true]
        intro c hc
        rcases List.mem_map.mp hc with ⟨d, hd, he⟩
        rw [← he]
        exact digitChar_isDigit d (hlt d (List.mem_reverse.mp hd))
      have hfold : ((natDigitsLE (m + 1) (m + 1)).reverse.map digitChar).foldl
          (fun a c => 10 * a + (c.toNat - 48)) 0 = m + 1 := by
        rw [foldl_digits _ hlt, digitsLE_foldr (m + 1) (m + 1) (Nat.le_refl _)]
      have hne : ((natDigitsLE (m + 1) (m + 1)).reverse.map digitChar) ≠ [] := by
        intro he
        rw [List.map_eq_nil_iff, List.reverse_eq_nil_iff] at he
        exact digitsLE_ne_nil m m he
      match hs : (natDigitsLE (m + 1) (m + 1)).reverse.map digitChar, hne with
      | c :: cs, _ =>
        have hcd : c.isDigit = true := by
          rw [List.all_eq_true] at hall
          rw [hs] at hall
          exact hall c (List.mem_cons_self c cs)
        have hcp : c ≠ '+' := by
          intro he
          rw [he] at hcd
          exact absurd hcd (by decide)
        have hnn : natToChars (m + 1) = c :: cs := by
          unfold natToChars
          rw [if_neg (Nat.succ_ne_zero m), hs]
        have hall2 : ((c :: cs : List Char)).all Char.isDigit = true := hs ▸ hall
        have hf2 : List.foldl (fun a c => 10 * a + (c.toNat - 48)) 0 (c :: cs) = m + 1 :=
          hs ▸ hfold
        rw [hnn, parseUsize_cons_ne_plus c cs hcp]
        rw [if_neg (by simp : ¬(c :: cs : List Char) = []), if_pos hall2]
        simp only [hf2]
        rw [if_pos h]

/-! ## Hash codec lemmas -/

theorem headNotWs_of_alnum {s : Str} (h : s.all rustIsAlnum = true) : HeadNotWs s := by
  intro c hc
  rw [List.all_eq_true] at h
  exact ws_of_alnum (h c (List.mem_of_mem_head? hc))

theorem lastNotWs_of_alnum {s : Str} (h : s.all rustIsAlnum = true) : LastNotWs s := by
  intro c hc
  rw [List.all_eq_true] at h
  exact ws_of_alnum (h c (List.mem_of_getLast?_eq_some hc))

theorem trim_space (s : Str) (hh : HeadNotWs s) (hl : LastNotWs s) :
    trimStr (' ' :: s) = s := by
  rw [trim_cons_ws s (by decide), trim_eq_self hh hl]

theorem hashToStr_headNotWs (h : Hash) (hwf : HashWF h) : HeadNotWs (hashToStr h) := by
  obtain ⟨m, str⟩ := h
  obtain ⟨hstr, hm⟩ := hwf
  cases m with
  | none => exact headNotWs_of_alnum hstr
  | some mm =>
    obtain ⟨hmne, _, _, _, hmh⟩ := hm mm rfl
    cases mm with
    | nil => exact absurd rfl hmne
    | cons mc mcs =>
      intro c hc
      exact hmh c hc

theorem hashToStr_lastNotWs (h : Hash) (hwf : HashWF h) : LastNotWs (hashToStr h) := by
  obtain ⟨m, str⟩ := h
  obtain ⟨hstr, hm⟩ := hwf
  cases m with
  | none => exact lastNotWs_of_alnum hstr
  | some mm =>
    obtain ⟨_, _, _, hsne, _⟩ := hm mm rfl
    intro c hc
    show rustIsWs c = false
    have he : hashToStr ⟨some mm, str⟩ = mm ++ ':' :: str := rfl
    rw [he, List.getLast?_append_of_ne_nil mm (by simp)] at hc
    cases str with
    | nil => exact absurd rfl hsne
    | cons sc scs =>
      have : (':' :: sc :: scs : Str).getLast? = (sc :: scs : Str).getLast? := by
        show ((([':'] : Str)) ++ sc :: scs).getLast? = _
        exact List.getLast?_append_of_ne_nil [':'] (by simp)
      rw [this] at hc
      exact lastNotWs_of_alnum hstr c hc

theorem hashFromStr_toStr (h : Hash) (hwf : HashWF h) :
    hashFromStr (hashToStr h) = .ok h := by
  obtain ⟨m, str⟩ := h
  obtain ⟨hstr, hm⟩ := hwf
  cases m with
  | none =>
    show hashFromStr str = .ok ⟨none, str⟩
    unfold hashFromStr
    rw [splitOnce_none ':' str (not_mem_of_all_alnum hstr (by decide))]
    show (if str.all rustIsAlnum = true then (Except.ok ⟨none, str⟩ : Except HashParseError Hash)
      else .error .hashNonAlphanumeric) = .ok ⟨none, str⟩
    rw [if_pos hstr]
  | some mm =>
    obtain ⟨hmne, hmc, _, hsne, _⟩ := hm mm rfl
    show hashFromStr (mm ++ ':' :: str) = .ok ⟨some mm, str⟩
    cases mm with
    | nil => exact absurd rfl hmne
    | cons mc mcs =>
      cases str with
      | nil => exact absurd rfl hsne
      | cons sc scs =>
        unfold hashFromStr
        rw [splitOnce_append ':' (mc :: mcs) (sc :: scs) hmc]
        show (if (sc :: scs : Str).all rustIsAlnum = true then
            (Except.ok ⟨some (mc :: mcs), sc :: scs⟩ : Except HashParseError Hash)
          else .error .hashNonAlphanumeric) = .ok ⟨some (mc :: mcs), sc :: scs⟩
        rw [if_pos hstr]

theorem hashFromStr_wf (s : Str) (hsh : Hash) (hnl : '\n' ∉ s) (hhd : HeadNotWs s)
    (h : hashFromStr s = .ok hsh) : HashWF hsh := by
  unfold hashFromStr at h
  split at h
  · next hsp =>
    split at h
    · next hall =>
      injection h with h2
      subst h2
      exact ⟨hall, fun m hm => by simp at hm⟩
    · exact absurd h (by simp)
  · exact absurd h (by simp)
  · next hs hsp =>
    split at h
    · next hall =>
      injection h with h2
      subst h2
      exact ⟨hall, fun m hm => by simp at hm⟩
    · exact absurd h (by simp)
  · next m hs hhsne hmne hsp =>
    obtain ⟨hse, hna⟩ := splitOnce_eq hsp
    split at h
    · next hall =>
      injection h with h2
      subst h2
      refine ⟨hall, ?_⟩
      intro m2 hm2
      have hm3 : some m = some m2 := hm2
      injection hm3 with h3
      subst h3
      rw [hse] at hnl
      refine ⟨fun he => hmne he, hna, fun hmem => hnl (List.mem_append_left _ hmem),
        fun he => hhsne he, ?_⟩
      intro c hc
      apply hhd
      rw [hse]
      cases m with
      | nil => exact absurd rfl (fun he => hmne he)
      | cons mc mcs => simpa using hc
    · exact absurd h (by simp)

/-! ## Store-path rendering round-trip -/

theorem takeWhile_all (p : Char → Bool) (l : Str) (hp : ∀ x ∈ l, p x = true) :
    l.takeWhile p = l := by
  induction l with
  | nil => rfl
  | cons x xs ih =>
    rw [List.takeWhile_cons, hp x (List.mem_cons_self x xs)]
    rw [ih (fun y hy => hp y (List.mem_cons_of_mem x hy))]
    rfl

theorem takeWhile_all_append (p : Char → Bool) (l : Str) (hp : ∀ x ∈ l, p x = true)
    (c : Char) (hc : p c = false) (r : Str) :
    (l ++ c :: r).takeWhile p = l := by
  induction l with
  | nil =>
    rw [List.nil_append, List.takeWhile_cons, hc]
    rfl
  | cons x xs ih =>
    rw [List.cons_append, List.takeWhile_cons, hp x (List.mem_cons_self x xs)]
    rw [ih (fun y hy => hp y (List.mem_cons_of_mem x hy))]
    rfl

theorem stripSlashes_eq_self (s : Str) (h : s.getLast? ≠ some '/') :
    stripSlashes s = s := by
  unfold stripSlashes
  rw [dropWhile_eq_self_of_head _ _ ?_, List.reverse_reverse]
  intro c hc
  rw [List.head?_reverse] at hc
  exact decide_eq_false (fun he => h (he ▸ hc))

theorem hashFromStr_alnum (s : Str) (hal : s.all rustIsAlnum = true) :
    hashFromStr s = .ok ⟨none, s⟩ := by
  unfold hashFromStr
  rw [splitOnce_none ':' s (not_mem_of_all_alnum hal (by decide))]
  show (if s.all rustIsAlnum = true then (Except.ok ⟨none, s⟩ : Except HashParseError Hash)
    else .error .hashNonAlphanumeric) = .ok ⟨none, s⟩
  rw [if_pos hal]

theorem derivFromStr_name (d : Derivation) (hal : d.hash.string.all rustIsAlnum = true)
    (hpne : d.package ≠ []) :
    derivFromStr (derivName d) = .ok ⟨d.package, ⟨none, d.hash.string⟩⟩ := by
  unfold derivFromStr derivName
  rw [splitOnce_append '-' d.hash.string d.package (not_mem_of_all_alnum hal (by decide))]
  cases hp : d.package with
  | nil => exact absurd hp hpne
  | cons pc pcs =>
    show ((match hashFromStr d.hash.string with
      | .error e => .error (.invalidHash e)
      | .ok hh => .ok ⟨pc :: pcs, hh⟩ : Except DerivationParseError Derivation))
      = .ok ⟨pc :: pcs, ⟨none, d.hash.string⟩⟩
    rw [hashFromStr_alnum d.hash.string hal]

theorem derivName_ne_nil (d : Derivation) : derivName d ≠ [] := by
  unfold derivName
  intro h
  rcases List.append_eq_nil.mp h with ⟨_, h2⟩
  exact List.cons_ne_nil _ _ h2

theorem derivName_mem_dash (d : Derivation) : '-' ∈ derivName d :=
  List.mem_append_right _ (List.mem_cons_self _ _)

theorem derivName_no_slash (d : Derivation) (hal : d.hash.string.all rustIsAlnum = true)
    (hps : '/' ∉ d.package) : '/' ∉ derivName d := by
  intro h
  rcases List.mem_append.mp h with h2 | h2
  · exact not_mem_of_all_alnum hal (by decide) h2
  · rcases List.mem_cons.mp h2 with h3 | h3
    · exact absurd h3 (by decide)
    · exact hps h3

theorem derivName_head (d : Derivation) (hal : d.hash.string.all rustIsAlnum = true) :
    (derivName d).head? ≠ some '/' := by
  unfold derivName
  cases hs : d.hash.string with
  | nil => simp
  | cons c cs =>
    rw [hs] at hal
    intro h
    rw [List.cons_append] at h
    have hc : c = '/' := by simpa using h
    have hca : rustIsAlnum c = true := by
      rw [List.all_eq_true] at hal
      exact hal c (List.mem_cons_self c cs)
    exact alnum_ne hca (by decide) hc

theorem derivName_not_dots (d : Derivation) :
    ¬(derivName d = [] ∨ derivName d = ['.'] ∨ derivName d = ['.', '.']) := by
  have hd := derivName_mem_dash d
  rintro (h | h | h) <;> rw [h] at hd <;> simp at hd

theorem derivName_last (d : Derivation) (hal : d.hash.string.all rustIsAlnum = true)
    (hps : '/' ∉ d.package) : (derivName d).getLast? ≠ some '/' := by
  intro h
  exact derivName_no_slash d hal hps (List.mem_of_getLast?_eq_some h)

theorem rustParent_body (s : Str) :
    rustParent s =
      (if s = [] then none
       else if stripSlashes s = [] then none
       else if (stripSlashes s).reverse.drop
           (((stripSlashes s).reverse.takeWhile (fun c => c ≠ '/')).length) = [] then some []
       else if (((stripSlashes s).reverse.drop
           (((stripSlashes s).reverse.takeWhile (fun c => c ≠ '/')).length)).dropWhile
           (fun c => c = '/')).reverse = [] then some ['/']
       else some (((stripSlashes s).reverse.drop
           (((stripSlashes s).reverse.takeWhile (fun c => c ≠ '/')).length)).dropWhile
           (fun c => c = '/')).reverse) := rfl

theorem rustFileName_body (s : Str) :
    rustFileName s =
      (if stripSlashes s = [] then none
       else if ((stripSlashes s).reverse.takeWhile (fun c => c ≠ '/')).reverse = [] ∨
           ((stripSlashes s).reverse.takeWhile (fun c => c ≠ '/')).reverse = ['.'] ∨
           ((stripSlashes s).reverse.takeWhile (fun c => c ≠ '/')).reverse = ['.', '.']
         then none
       else some ((stripSlashes s).reverse.takeWhile (fun c => c ≠ '/')).reverse) := rfl

theorem storePathFromStr_path (sp : StorePath) (hwf : SpWF sp) :
    storePathFromStr (spPath sp) = .ok (spCanon sp) := by
  obtain ⟨root, d⟩ := sp
  obtain ⟨hro, hrh, hrn, hal, hpne, hps, hpn⟩ := hwf
  have hnsl : '/' ∉ derivName d := derivName_no_slash d hal hps
  have hlast : (derivName d).getLast? ≠ some '/' := derivName_last d hal hps
  have hne : derivName d ≠ [] := derivName_ne_nil d
  have hstrip : stripSlashes (derivName d) = derivName d := stripSlashes_eq_self _ hlast
  have htw : (derivName d).reverse.takeWhile (fun c => c ≠ '/') = (derivName d).reverse :=
    takeWhile_all _ _ (fun x hx =>
      decide_eq_true (fun he => hnsl (he ▸ List.mem_reverse.mp hx)))
  have hdots := derivName_not_dots d
  have hpnot : ∀ x ∈ (derivName d).reverse, x ≠ '/' :=
    fun x hx he => hnsl (he ▸ List.mem_reverse.mp hx)
  rcases hro with hE | hS | ⟨hne_root, hgl_root⟩
  · subst hE
    have hpath : spPath ⟨([] : Str), d⟩ = derivName d := by
      show rustJoin [] (derivName d) = derivName d
      unfold rustJoin
      rw [if_neg (derivName_head d hal), if_pos rfl]
    have hpar : rustParent (derivName d) = some [] := by
      rw [rustParent_body, hstrip, if_neg hne, if_neg hne, htw, List.drop_length,
        if_pos rfl]
    have hfn : rustFileName (derivName d) = some (derivName d) := by
      rw [rustFileName_body, hstrip, if_neg hne, htw, List.reverse_reverse, if_neg hdots]
    rw [hpath]
    unfold storePathFromStr
    simp only [hpar, hfn, derivFromStr_name d hal hpne, spCanon]
  · subst hS
    have hpath : spPath ⟨['/'], d⟩ = '/' :: derivName d := by
      show rustJoin ['/'] (derivName d) = '/' :: derivName d
      unfold rustJoin
      rw [if_neg (derivName_head d hal), if_neg (by simp : ¬(['/'] : Str) = []),
        if_pos (by decide : (['/'] : Str).getLast? = some '/')]
      rfl
    have hx : ('/' :: derivName d : Str) ≠ [] := by simp
    have hgl2 : ('/' :: derivName d : Str).getLast? ≠ some '/' := by
      rw [show ('/' :: derivName d : Str) = ['/'] ++ derivName d from rfl,
        List.getLast?_append_of_ne_nil ['/'] hne]
      exact hlast
    have hstrip2 : stripSlashes ('/' :: derivName d) = '/' :: derivName d :=
      stripSlashes_eq_self _ hgl2
    have hrev : ('/' :: derivName d : Str).reverse = (derivName d).reverse ++ ['/'] :=
      List.reverse_cons '/' (derivName d)
    have htw2 : ((derivName d).reverse ++ ['/']).takeWhile (fun c => c ≠ '/')
        = (derivName d).reverse :=
      takeWhile_all_append _ _ (fun x hx => decide_eq_true (hpnot x hx)) '/' (by decide) []
    have hdrop : ((derivName d).reverse ++ ['/']).drop (derivName d).reverse.length = ['/'] :=
      List.drop_left _ _
    have hpar2 : rustParent ('/' :: derivName d) = some ['/'] := by
      rw [rustParent_body, hstrip2, if_neg hx, if_neg hx, hrev, htw2, hdrop,
        if_neg (by simp : ¬(['/'] : Str) = [])]
      rfl
    have hfn2 : rustFileName ('/' :: derivName d) = some (derivName d) := by
      rw [rustFileName_body, hstrip2, if_neg hx, hrev, htw2, List.reverse_reverse,
        if_neg hdots]
    rw [hpath]
    unfold storePathFromStr
    simp only [hpar2, hfn2, derivFromStr_name d hal hpne, spCanon]
  · have hpath : spPath ⟨root, d⟩ = root ++ '/' :: derivName d := by
      show rustJoin root (derivName d) = root ++ '/' :: derivName d
      unfold rustJoin
      rw [if_neg (derivName_head d hal), if_neg hne_root, if_neg hgl_root]
    have hsne : (root ++ '/' :: derivName d : Str) ≠ [] := by simp
    have hgl3 : (root ++ '/' :: derivName d : Str).getLast? = (derivName d).getLast? := by
      rw [List.getLast?_append_of_ne_nil root (List.cons_ne_nil _ _),
        show ('/' :: derivName d : Str) = ['/'] ++ derivName d from rfl,
        List.getLast?_append_of_ne_nil ['/'] hne]
    have hstrip3 : stripSlashes (root ++ '/' :: derivName d) = root ++ '/' :: derivName d := by
      apply stripSlashes_eq_self
      rw [hgl3]
      exact hlast
    have hrev3 : (root ++ '/' :: derivName d : Str).reverse
        = (derivName d).reverse ++ '/' :: root.reverse := by
      rw [List.reverse_append, List.reverse_cons, List.append_assoc, List.singleton_append]
    have htw3 : ((derivName d).reverse ++ '/' :: root.reverse).takeWhile (fun c => c ≠ '/')
        = (derivName d).reverse :=
      takeWhile_all_append _ _ (fun x hx => decide_eq_true (hpnot x hx)) '/' (by decide) _
    have hdrop3 : ((derivName d).reverse ++ '/' :: root.reverse).drop
        (derivName d).reverse.length = '/' :: root.reverse :=
      List.drop_left _ _
    have hdw : (('/' :: root.reverse : Str)).dropWhile (fun c => c = '/') = root.reverse := by
      rw [List.dropWhile_cons, if_pos (by decide)]
      exact dropWhile_eq_self_of_head _ _ (fun c hc => by
        rw [List.head?_reverse] at hc
        exact decide_eq_false (fun he => hgl_root (he ▸ hc)))
    have hpar3 : rustParent (root ++ '/' :: derivName d) = some root := by
      rw [rustParent_body, hstrip3, if_neg hsne, if_neg hsne, hrev3, htw3, hdrop3,
        if_neg (List.cons_ne_nil _ _), hdw, List.reverse_reverse, if_neg hne_root]
    have hfn3 : rustFileName (root ++ '/' :: derivName d) = some (derivName d) := by
      rw [rustFileName_body, hstrip3, if_neg hsne, hrev3, htw3, List.reverse_reverse,
        if_neg hdots]
    rw [hpath]
    unfold storePathFromStr
    simp only [hpar3, hfn3, derivFromStr_name d hal hpne, spCanon]

/-! ## References column lemmas -/

theorem splitWsAux_token (t : Str) (ht : ∀ c ∈ t, rustIsWs c = false) :
    ∀ rest acc, splitWsAux (t ++ rest) acc = splitWsAux rest (t.reverse ++ acc) := by
  induction t with
  | nil =>
    intro rest acc
    rw [List.nil_append, List.reverse_nil, List.nil_append]
  | cons c cs ih =>
    intro rest acc
    rw [List.cons_append]
    have hstep : splitWsAux (c :: (cs ++ rest)) acc =
        if rustIsWs c = true then
          (if acc = [] then splitWsAux (cs ++ rest) []
           else acc.reverse :: splitWsAux (cs ++ rest) [])
        else splitWsAux (cs ++ rest) (c :: acc) := rfl
    rw [hstep, ht c (List.mem_cons_self c cs), if_neg (by decide)]
    rw [ih (fun x hx => ht x (List.mem_cons_of_mem c hx)) rest (c :: acc)]
    rw [List.reverse_cons, List.append_assoc, List.singleton_append]

theorem derivName_ws_free (r : Derivation) (hwf : DerivRefWF r) :
    ∀ c ∈ derivName r, rustIsWs c = false := by
  obtain ⟨hal, hpne, hws⟩ := hwf
  intro c hc
  rcases List.mem_append.mp hc with h2 | h2
  · rw [List.all_eq_true] at hal
    exact ws_of_alnum (hal c h2)
  · rcases List.mem_cons.mp h2 with h3 | h3
    · subst h3
      decide
    · exact hws c h3

theorem splitWs_names (rs : List Derivation) (h : ∀ r ∈ rs, DerivRefWF r) :
    splitWs (rs.flatMap (fun r => ' ' :: derivName r)) = rs.map derivName := by
  unfold splitWs
  induction rs with
  | nil => rfl
  | cons r rest ih =>
    have hwsr := derivName_ws_free r (h r (List.mem_cons_self r rest))
    have hrevne : ¬((derivName r).reverse = []) := by
      simpa using derivName_ne_nil r
    rw [List.flatMap_cons, List.cons_append]
    have h1 : splitWsAux
        (' ' :: (derivName r ++ rest.flatMap (fun x => ' ' :: derivName x))) [] =
        splitWsAux (derivName r ++ rest.flatMap (fun x => ' ' :: derivName x)) [] := rfl
    rw [h1, splitWsAux_token (derivName r) hwsr _ [], List.append_nil]
    cases rest with
    | nil =>
      have h2 : splitWsAux ([] ++ ([] : List Derivation).flatMap
          (fun x => ' ' :: derivName x)) ((derivName r).reverse) =
          [(derivName r).reverse.reverse] := by
        show (if (derivName r).reverse = [] then ([] : List Str)
          else [(derivName r).reverse.reverse]) = [(derivName r).reverse.reverse]
        rw [if_neg hrevne]
      rw [show (([] : List Derivation).flatMap (fun x => ' ' :: derivName x)) = ([] : Str)
        from rfl]
      show (if (derivName r).reverse = [] then ([] : List Str)
        else [(derivName r).reverse.reverse]) = [r].map derivName
      rw [if_neg hrevne, List.reverse_reverse]
      rfl
    | cons r2 rest2 =>
      rw [List.flatMap_cons, List.cons_append]
      have h3 : splitWsAux
          (' ' :: (derivName r2 ++ rest2.flatMap (fun x => ' ' :: derivName x)))
          ((derivName r).reverse) =
          (derivName r).reverse.reverse ::
            splitWsAux (derivName r2 ++ rest2.flatMap (fun x => ' ' :: derivName x)) [] := by
        show (if (derivName r).reverse = [] then
            splitWsAux (derivName r2 ++ rest2.flatMap (fun x => ' ' :: derivName x)) []
          else (derivName r).reverse.reverse ::
            splitWsAux (derivName r2 ++ rest2.flatMap (fun x => ' ' :: derivName x)) []) = _
        rw [if_neg hrevne]
      rw [h3, List.reverse_reverse]
      have ih2 := ih (fun x hx => h x (List.mem_cons_of_mem r hx))
      rw [List.flatMap_cons, List.cons_append] at ih2
      have h4 : splitWsAux
          (' ' :: (derivName r2 ++ rest2.flatMap (fun x => ' ' :: derivName x))) [] =
          splitWsAux (derivName r2 ++ rest2.flatMap (fun x => ' ' :: derivName x)) [] := rfl
      rw [h4] at ih2
      rw [ih2]
      rfl

theorem splitWsAux_wf : ∀ (s acc : Str), (∀ c ∈ acc, rustIsWs c = false) →
    ∀ t ∈ splitWsAux s acc, t ≠ [] ∧ ∀ c ∈ t, rustIsWs c = false := by
  intro s
  induction s with
  | nil =>
    intro acc hacc t ht
    unfold splitWsAux at ht
    split at ht
    · simp at ht
    · next hne =>
      rw [List.mem_singleton] at ht
      subst ht
      refine ⟨by simpa using hne, fun c hc => hacc c (List.mem_reverse.mp hc)⟩
  | cons c cs ih =>
    intro acc hacc t ht
    unfold splitWsAux at ht
    split at ht
    · split at ht
      · exact ih [] (by simp) t ht
      · next hne =>
        rcases List.mem_cons.mp ht with he | hm
        · subst he
          refine ⟨by simpa using hne, fun c2 hc2 => hacc c2 (List.mem_reverse.mp hc2)⟩
        · exact ih [] (by simp) t hm
    · next hw =>
      refine ih (c :: acc) ?_ t ht
      intro c2 hc2
      rcases List.mem_cons.mp hc2 with he | hm
      · subst he
        revert hw
        cases rustIsWs c2 <;> simp
      · exact hacc c2 hm

theorem splitWs_wf (s : Str) : ∀ t ∈ splitWs s, t ≠ [] ∧ ∀ c ∈ t, rustIsWs c = false :=
  splitWsAux_wf s [] (by simp)

theorem hashFromStr_string_alnum (s : Str) (hsh : Hash) (h : hashFromStr s = .ok hsh) :
    hsh.string.all rustIsAlnum = true := by
  unfold hashFromStr at h
  split at h
  · split at h
    · next hall =>
      injection h with h2
      subst h2
      exact hall
    · exact absurd h (by simp)
  · exact absurd h (by simp)
  · split at h
    · next hall =>
      injection h with h2
      subst h2
      exact hall
    · exact absurd h (by simp)
  · split at h
    · next hall =>
      injection h with h2
      subst h2
      exact hall
    · exact absurd h (by simp)

theorem derivFromStr_wf (t : Str) (r : Derivation) (hws : ∀ c ∈ t, rustIsWs c = false)
    (h : derivFromStr t = .ok r) : DerivRefWF r := by
  unfold derivFromStr at h
  split at h
  · exact absurd h (by simp)
  · exact absurd h (by simp)
  · next hp p hpne hsp =>
    obtain ⟨hte, _⟩ := splitOnce_eq hsp
    split at h
    · exact absurd h (by simp)
    · next hh hok =>
      injection h with h2
      subst h2
      refine ⟨hashFromStr_string_alnum _ _ hok, fun he => hpne he, ?_⟩
      intro c hc
      apply hws c
      rw [hte]
      exact List.mem_append_right _ (List.mem_cons_of_mem '-' hc)

theorem mapM_derivs (rs : List Derivation) (h : ∀ r ∈ rs, DerivRefWF r) :
    (rs.map derivName).mapM derivFromStr
      = .ok (rs.map (fun r => (⟨r.package, ⟨none, r.hash.string⟩⟩ : Derivation))) := by
  induction rs with
  | nil => rfl
  | cons r rest ih =>
    obtain ⟨hal, hpne, hws⟩ := h r (List.mem_cons_self r rest)
    simp only [List.map_cons, List.mapM_cons, derivFromStr_name r hal hpne,
      ih (fun x hx => h x (List.mem_cons_of_mem r hx)), bind, Except.bind, pure,
      Except.pure]

theorem refs_eta (rs : List Derivation) (h : ∀ r ∈ rs, r.hash.method = none) :
    rs.map (fun r => (⟨r.package, ⟨none, r.hash.string⟩⟩ : Derivation)) = rs := by
  induction rs with
  | nil => rfl
  | cons r rest ih =>
    rw [List.map_cons, ih (fun x hx => h x (List.mem_cons_of_mem r hx))]
    obtain ⟨p, m, str⟩ := r
    have hm : m = none := h ⟨p, m, str⟩ (List.mem_cons_self _ _)
    subst hm
    rfl

theorem derivName_headNotWs (r : Derivation) (hwf : DerivRefWF r) :
    HeadNotWs (derivName r) :=
  fun c hc => derivName_ws_free r hwf c (List.mem_of_mem_head? hc)

theorem derivName_lastNotWs (r : Derivation) (hwf : DerivRefWF r) :
    LastNotWs (derivName r) :=
  fun c hc => derivName_ws_free r hwf c (List.mem_of_getLast?_eq_some hc)

theorem headNotWs_append {a : Str} (b : Str) (ha : HeadNotWs a) (hne : a ≠ []) :
    HeadNotWs (a ++ b) := by
  cases a with
  | nil => exact absurd rfl hne
  | cons x xs =>
    intro c hc
    have h2 : some x = some c := by simpa using hc
    exact ha c h2

theorem refs_last (r : Derivation) (rest : List Derivation)
    (h : ∀ x ∈ r :: rest, DerivRefWF x) :
    LastNotWs (derivName r ++ rest.flatMap (fun x => ' ' :: derivName x)) := by
  induction rest generalizing r with
  | nil =>
    rw [show (([] : List Derivation).flatMap (fun x => ' ' :: derivName x)) = ([] : Str)
      from rfl, List.append_nil]
    exact derivName_lastNotWs r ((h r (List.mem_cons_self _ _)))
  | cons r2 rest2 ih =>
    have hXne : derivName r2 ++ rest2.flatMap (fun x => ' ' :: derivName x) ≠ [] := by
      intro he
      rcases List.append_eq_nil.mp he with ⟨h1, _⟩
      exact derivName_ne_nil r2 h1
    have hgl : (derivName r ++ ' ' ::
        (derivName r2 ++ rest2.flatMap (fun x => ' ' :: derivName x))).getLast?
        = (derivName r2 ++ rest2.flatMap (fun x => ' ' :: derivName x)).getLast? := by
      rw [List.getLast?_append_of_ne_nil _ (List.cons_ne_nil _ _),
        show (' ' :: (derivName r2 ++ rest2.flatMap (fun x => ' ' :: derivName x)) : Str)
          = [' '] ++ (derivName r2 ++ rest2.flatMap (fun x => ' ' :: derivName x)) from rfl,
        List.getLast?_append_of_ne_nil _ hXne]
    intro c hc
    rw [List.flatMap_cons, List.cons_append, hgl] at hc
    exact ih r2 (fun x hx => h x (List.mem_cons_of_mem r hx)) c hc

theorem trim_refsColumn (r : Derivation) (rest : List Derivation)
    (h : ∀ x ∈ r :: rest, DerivRefWF x) :
    trimStr (refsColumn (r :: rest))
      = derivName r ++ rest.flatMap (fun x => ' ' :: derivName x) := by
  unfold refsColumn
  rw [List.flatMap_cons, List.cons_append, trim_cons_ws _ (by decide)]
  exact trim_eq_self
    (headNotWs_append _ (derivName_headNotWs r (h r (List.mem_cons_self _ _)))
      (derivName_ne_nil r))
    (refs_last r rest h)

theorem trim_splitWs_refs (rs : List Derivation) (h : ∀ r ∈ rs, DerivRefWF r) :
    splitWs (trimStr (refsColumn rs)) = rs.map derivName := by
  cases rs with
  | nil => rfl
  | cons r rest =>
    have h5 := splitWs_names (r :: rest) h
    rw [show ((r :: rest).flatMap (fun x => ' ' :: derivName x))
        = ' ' :: (derivName r ++ rest.flatMap (fun x => ' ' :: derivName x))
      from by rw [List.flatMap_cons, List.cons_append]] at h5
    have h6 : splitWs (' ' :: (derivName r ++ rest.flatMap (fun x => ' ' :: derivName x)))
        = splitWs (derivName r ++ rest.flatMap (fun x => ' ' :: derivName x)) := rfl
    rw [h6] at h5
    rw [trim_refsColumn r rest h]
    exact h5

/-! ## Line well-formedness of the rendered descriptor -/

theorem valWF_lastNotWs {v : Str} (h : ValWF v) : LastNotWs v := h.1 ▸ trim_lastNotWs v

theorem valWF_headNotWs {v : Str} (h : ValWF v) : HeadNotWs v := h.1 ▸ trim_headNotWs v

theorem mem_rustJoin {c : Char} {root nm : Str} (h : c ∈ rustJoin root nm) :
    c ∈ root ∨ c = '/' ∨ c ∈ nm := by
  unfold rustJoin at h
  split at h
  · exact Or.inr (Or.inr h)
  · split at h
    · exact Or.inr (Or.inr h)
    · split at h
      · rcases List.mem_append.mp h with h2 | h2
        · exact Or.inl h2
        · exact Or.inr (Or.inr h2)
      · rcases List.mem_append.mp h with h2 | h2
        · exact Or.inl h2
        · rcases List.mem_cons.mp h2 with h3 | h3
          · exact Or.inr (Or.inl h3)
          · exact Or.inr (Or.inr h3)

theorem derivName_headNotWs2 (d : Derivation) (hal : d.hash.string.all rustIsAlnum = true) :
    HeadNotWs (derivName d) := by
  unfold derivName
  cases hs : d.hash.string with
  | nil =>
    intro c hc
    have h2 : some '-' = some c := by simpa using hc
    injection h2 with h3
    subst h3
    decide
  | cons x xs =>
    rw [hs] at hal
    intro c hc
    rw [List.cons_append] at hc
    have h2 : some x = some c := by simpa using hc
    injection h2 with h3
    subst h3
    rw [List.all_eq_true] at hal
    exact ws_of_alnum (hal x (List.mem_cons_self _ _))

theorem spPath_headNotWs (sp : StorePath) (hwf : SpWF sp) : HeadNotWs (spPath sp) := by
  obtain ⟨root, d⟩ := sp
  obtain ⟨hro, hrh, hrn, hal, hpne, hps, hpn⟩ := hwf
  show HeadNotWs (rustJoin root (derivName d))
  unfold rustJoin
  split
  · exact derivName_headNotWs2 d hal
  · split
    · exact derivName_headNotWs2 d hal
    · next hne =>
      split
      · exact headNotWs_append _ hrh hne
      · exact headNotWs_append _ hrh hne

theorem spPath_no_nl (sp : StorePath) (hwf : SpWF sp) : '\n' ∉ spPath sp := by
  obtain ⟨root, d⟩ := sp
  obtain ⟨hro, hrh, hrn, hal, hpne, hps, hpn⟩ := hwf
  intro hm
  rcases mem_rustJoin hm with h | h | h
  · exact hrn h
  · exact absurd h (by decide)
  · rcases List.mem_append.mp h with h2 | h2
    · exact not_mem_of_all_alnum hal (by decide) h2
    · rcases List.mem_cons.mp h2 with h3 | h3
      · exact absurd h3 (by decide)
      · exact hpn h3

theorem hashToStr_no_nl (h : Hash) (hwf : HashWF h) : '\n' ∉ hashToStr h := by
  obtain ⟨m, str⟩ := h
  obtain ⟨hstr, hm⟩ := hwf
  cases m with
  | none => exact not_mem_of_all_alnum hstr (by decide)
  | some mm =>
    obtain ⟨_, _, hmn, _, _⟩ := hm mm rfl
    intro hmem
    rcases List.mem_append.mp hmem with h2 | h2
    · exact hmn h2
    · rcases List.mem_cons.mp h2 with h3 | h3
      · exact absurd h3 (by decide)
      · exact not_mem_of_all_alnum hstr (by decide) h3

theorem digitChar_not_ws (d : Nat) (h : d < 10) : rustIsWs (digitChar d) = false := by
  interval_cases d <;> decide

theorem natToChars_ws_free (n : Nat) : ∀ c ∈ natToChars n, rustIsWs c = false := by
  intro c hc
  unfold natToChars at hc
  split at hc
  · rw [List.mem_singleton] at hc
    subst hc
    decide
  · rcases List.mem_map.mp hc with ⟨d, hd, he⟩
    exact he ▸ digitChar_not_ws d (digitsLE_lt _ _ d (List.mem_reverse.mp hd))

theorem natToChars_no_nl (n : Nat) : '\n' ∉ natToChars n :=
  fun hm => absurd (natToChars_ws_free n _ hm) (by decide)

theorem natToChars_lastNotWs (n : Nat) : LastNotWs (natToChars n) :=
  fun c hc => natToChars_ws_free n c (List.mem_of_getLast?_eq_some hc)

theorem natToChars_headNotWs (n : Nat) : HeadNotWs (natToChars n) :=
  fun c hc => natToChars_ws_free n c (List.mem_of_mem_head? hc)

theorem lastNotCr_append (a b : Str) (ha : a.getLast? ≠ some '\r') (hb : LastNotWs b) :
    (a ++ b).getLast? ≠ some '\r' := by
  cases b with
  | nil =>
    rw [List.append_nil]
    exact ha
  | cons x xs =>
    rw [List.getLast?_append_of_ne_nil a (List.cons_ne_nil x xs)]
    intro hc
    exact absurd (hb '\r' hc) (by decide)

theorem lastNotWs_cons {x : Char} {X : Str} (hXne : X ≠ []) (hX : LastNotWs X) :
    LastNotWs (x :: X) := by
  cases X with
  | nil => exact absurd rfl hXne
  | cons y ys =>
    intro c hc
    rw [show (x :: y :: ys : Str) = [x] ++ (y :: ys) from rfl,
      List.getLast?_append_of_ne_nil _ (List.cons_ne_nil _ _)] at hc
    exact hX c hc

theorem lineWF_append (pre v : Str) (h1 : '\n' ∉ pre) (h2 : pre.getLast? ≠ some '\r')
    (h3 : '\n' ∉ v) (h4 : LastNotWs v) :
    '\n' ∉ pre ++ v ∧ (pre ++ v).getLast? ≠ some '\r' := by
  constructor
  · intro hm
    rcases List.mem_append.mp hm with h | h
    · exact h1 h
    · exact h3 h
  · exact lastNotCr_append pre v h2 h4

theorem refsColumn_no_nl (rs : List Derivation) (h : ∀ r ∈ rs, DerivRefWF r) :
    '\n' ∉ refsColumn rs := by
  intro hm
  unfold refsColumn at hm
  rcases List.mem_flatMap.mp hm with ⟨r, hr, hmm⟩
  rcases List.mem_cons.mp hmm with he | hmem
  · exact absurd he (by decide)
  · exact absurd (derivName_ws_free r (h r hr) _ hmem) (by decide)

theorem refsColumn_lastNotWs (rs : List Derivation) (hne : rs ≠ [])
    (h : ∀ r ∈ rs, DerivRefWF r) : LastNotWs (refsColumn rs) := by
  cases rs with
  | nil => exact absurd rfl hne
  | cons r rest =>
    unfold refsColumn
    rw [List.flatMap_cons, List.cons_append]
    refine lastNotWs_cons ?_ (refs_last r rest h)
    intro he
    rcases List.append_eq_nil.mp he with ⟨h1, _⟩
    exact derivName_ne_nil r h1

theorem narInfoToStr_lines (ni : NarInfo) :
    narInfoToStr ni = (narLines ni).flatMap (fun l => l ++ ['\n']) := by
  obtain ⟨sp, url, comp, fh, fs, nh, ns, dv, sy, refs, sg⟩ := ni
  rcases dv with _ | dv <;> rcases sy with _ | sy <;> rcases sg with _ | sg <;>
    simp [narInfoToStr, narLines, refsColumn, List.flatMap_cons, List.append_assoc]

theorem narLines_wf (ni : NarInfo) (hwf : NarInfoWF ni)
    (hsplast : LastNotWs (spPath ni.storePath)) :
    ∀ l ∈ narLines ni, '\n' ∉ l ∧ l.getLast? ≠ some '\r' := by
  obtain ⟨sp, url, comp, fh, fs, nh, ns, dv, sy, refs, sg⟩ := ni
  obtain ⟨hsp, hurl, hfh, hfs, hnh, hns, hdr, hsy, hrefs2, hsg⟩ := hwf
  have hrefslast : LastNotWs (refsColumn refs) := by
    cases refs with
    | nil =>
      intro c hc
      simp [refsColumn] at hc
    | cons r rest => exact refsColumn_lastNotWs _ (by simp) hrefs2
  intro l hl
  unfold narLines at hl
  rcases List.mem_append.mp hl with h1 | hsig
  rotate_left
  · rcases hd : sg with _ | v
    · rw [hd] at hsig
      simp at hsig
    · rw [hd] at hsig
      rw [List.mem_singleton] at hsig
      subst hsig
      have hv := hsg v hd
      exact lineWF_append _ _ (by decide) (by decide) hv.2 (valWF_lastNotWs hv)
  rcases List.mem_append.mp h1 with h2 | hrefs1
  rotate_left
  · rw [List.mem_singleton] at hrefs1
    subst hrefs1
    exact lineWF_append _ _ (by decide) (by decide) (refsColumn_no_nl refs hrefs2)
      hrefslast
  rcases List.mem_append.mp h2 with h3 | hsys1
  rotate_left
  · rcases hd : sy with _ | v
    · rw [hd] at hsys1
      simp at hsys1
    · rw [hd] at hsys1
      rw [List.mem_singleton] at hsys1
      subst hsys1
      have hv := hsy v hd
      exact lineWF_append _ _ (by decide) (by decide) hv.2 (valWF_lastNotWs hv)
  rcases List.mem_append.mp h3 with h4 | hder1
  rotate_left
  · rcases hd : dv with _ | v
    · rw [hd] at hder1
      simp at hder1
    · rw [hd] at hder1
      rw [List.mem_singleton] at hder1
      subst hder1
      have hv := hdr v hd
      exact lineWF_append _ _ (by decide) (by decide) hv.2 (valWF_lastNotWs hv)
  · simp only [List.mem_cons, List.not_mem_nil, or_false] at h4
    rcases h4 with rfl | rfl | rfl | rfl | rfl | rfl | rfl
    · exact lineWF_append _ _ (by decide) (by decide) (spPath_no_nl sp hsp) hsplast
    · exact lineWF_append _ _ (by decide) (by decide) hurl.2 (valWF_lastNotWs hurl)
    · cases comp
      decide
    · exact lineWF_append _ _ (by decide) (by decide) (hashToStr_no_nl fh hfh)
        (hashToStr_lastNotWs fh hfh)
    · exact lineWF_append _ _ (by decide) (by decide) (natToChars_no_nl fs)
        (natToChars_lastNotWs fs)
    · exact lineWF_append _ _ (by decide) (by decide) (hashToStr_no_nl nh hnh)
        (hashToStr_lastNotWs nh hnh)
    · exact lineWF_append _ _ (by decide) (by decide) (natToChars_no_nl ns)
        (natToChars_lastNotWs ns)

/-! ## Parsing one rendered line -/

theorem parseLine_storePath_ok (b : NarInfoB) (sp : StorePath) (hwf : SpWF sp)
    (hlast : LastNotWs (spPath sp)) :
    narParseLine b (lit "StorePath: " ++ spPath sp)
      = .ok { b with storePath := some (spCanon sp) } := by
  have hbase : ∀ p : Str, narParseLine b (lit "StorePath: " ++ p)
      = (match storePathFromStr (trimStr (' ' :: p)) with
        | .error _ => .error (.invalidFieldValue (lit "StorePath") (trimStr (' ' :: p)))
        | .ok sp2 => .ok { b with storePath := some sp2 }) := fun p => rfl
  rw [hbase, trim_space _ (spPath_headNotWs sp hwf) hlast, storePathFromStr_path sp hwf]

theorem parseLine_url_ok (b : NarInfoB) (v : Str) (hv : ValWF v) :
    narParseLine b (lit "URL: " ++ v) = .ok { b with url := some v } := by
  have hbase : narParseLine b (lit "URL: " ++ v)
      = .ok { b with url := some (trimStr (' ' :: v)) } := rfl
  rw [hbase, trim_space v (valWF_headNotWs hv) (valWF_lastNotWs hv)]

theorem parseLine_comp_ok (b : NarInfoB) (c : CompressionType) :
    narParseLine b (lit "Compression: " ++ compToStr c)
      = .ok { b with compression := some c } := by
  cases c
  rfl

theorem parseLine_fileHash_ok (b : NarInfoB) (h : Hash) (hwf : HashWF h) :
    narParseLine b (lit "FileHash: " ++ hashToStr h)
      = .ok { b with fileHash := some h } := by
  have hbase : ∀ p : Str, narParseLine b (lit "FileHash: " ++ p)
      = (match hashFromStr (trimStr (' ' :: p)) with
        | .error _ => .error (.invalidFieldValue (lit "FileHash") (trimStr (' ' :: p)))
        | .ok hh => .ok { b with fileHash := some hh }) := fun p => rfl
  rw [hbase, trim_space _ (hashToStr_headNotWs h hwf) (hashToStr_lastNotWs h hwf),
    hashFromStr_toStr h hwf]

theorem parseLine_fileSize_ok (b : NarInfoB) (n : Nat) (h : n < 2 ^ 64) :
    narParseLine b (lit "FileSize: " ++ natToChars n)
      = .ok { b with fileSize := some n } := by
  have hbase : ∀ p : Str, narParseLine b (lit "FileSize: " ++ p)
      = (match parseUsize (trimStr (' ' :: p)) with
        | none => .error (.invalidFieldValue (lit "FileSize") (trimStr (' ' :: p)))
        | some n2 => .ok { b with fileSize := some n2 }) := fun p => rfl
  rw [hbase, trim_space _ (natToChars_headNotWs n) (natToChars_lastNotWs n),
    parseUsize_natToChars n h]

theorem parseLine_narHash_ok (b : NarInfoB) (h : Hash) (hwf : HashWF h) :
    narParseLine b (lit "NarHash: " ++ hashToStr h)
      = .ok { b with narHash := some h } := by
  have hbase : ∀ p : Str, narParseLine b (lit "NarHash: " ++ p)
      = (match hashFromStr (trimStr (' ' :: p)) with
        | .error _ => .error (.invalidFieldValue (lit "NarHash") (trimStr (' ' :: p)))
        | .ok hh => .ok { b with narHash := some hh }) := fun p => rfl
  rw [hbase, trim_space _ (hashToStr_headNotWs h hwf) (hashToStr_lastNotWs h hwf),
    hashFromStr_toStr h hwf]

theorem parseLine_narSize_ok (b : NarInfoB) (n : Nat) (h : n < 2 ^ 64) :
    narParseLine b (lit "NarSize: " ++ natToChars n)
      = .ok { b with narSize := some n } := by
  have hbase : ∀ p : Str, narParseLine b (lit "NarSize: " ++ p)
      = (match parseUsize (trimStr (' ' :: p)) with
        | none => .error (.invalidFieldValue (lit "NarSize") (trimStr (' ' :: p)))
        | some n2 => .ok { b with narSize := some n2 }) := fun p => rfl
  rw [hbase, trim_space _ (natToChars_headNotWs n) (natToChars_lastNotWs n),
    parseUsize_natToChars n h]

theorem parseLine_deriver_ok (b : NarInfoB) (v : Str) (hv : ValWF v) :
    narParseLine b (lit "Deriver: " ++ v) = .ok { b with deriver := some (some v) } := by
  have hbase : narParseLine b (lit "Deriver: " ++ v)
      = .ok { b with deriver := some (some (trimStr (' ' :: v))) } := rfl
  rw [hbase, trim_space v (valWF_headNotWs hv) (valWF_lastNotWs hv)]

theorem parseLine_system_ok (b : NarInfoB) (v : Str) (hv : ValWF v) :
    narParseLine b (lit "System: " ++ v) = .ok { b with system := some (some v) } := by
  have hbase : narParseLine b (lit "System: " ++ v)
      = .ok { b with system := some (some (trimStr (' ' :: v))) } := rfl
  rw [hbase, trim_space v (valWF_headNotWs hv) (valWF_lastNotWs hv)]

theorem parseLine_sig_ok (b : NarInfoB) (v : Str) (hv : ValWF v) :
    narParseLine b (lit "Sig: " ++ v) = .ok { b with signature := some (some v) } := by
  have hbase : narParseLine b (lit "Sig: " ++ v)
      = .ok { b with signature := some (some (trimStr (' ' :: v))) } := rfl
  rw [hbase, trim_space v (valWF_headNotWs hv) (valWF_lastNotWs hv)]

theorem parseLine_refs_ok (b : NarInfoB) (rs : List Derivation)
    (h : ∀ r ∈ rs, DerivRefWF r) (hm : ∀ r ∈ rs, r.hash.method = none) :
    narParseLine b (lit "References:" ++ refsColumn rs)
      = .ok { b with references := some rs } := by
  have hbase : ∀ p : Str, narParseLine b (lit "References:" ++ p)
      = (match (splitWs (trimStr p)).mapM derivFromStr with
        | .error e => .error (.invalidReference e)
        | .ok rs2 => .ok { b with references := some rs2 }) := fun p => rfl
  rw [hbase, trim_splitWs_refs rs h, mapM_derivs rs h, refs_eta rs hm]

theorem narInfo_roundtrip (ni : NarInfo) (hwf : NarInfoWF ni)
    (hrefs : ∀ r ∈ ni.references, r.hash.method = none)
    (hsplast : LastNotWs (spPath ni.storePath)) :
    narInfoFromStr (narInfoToStr ni) = .ok (narCanon ni) := by
  unfold narInfoFromStr
  rw [narInfoToStr_lines, rustLines_flat (narLines ni) (narLines_wf ni hwf hsplast)]
  obtain ⟨sp, url, comp, fh, fs, nh, ns, dv, sy, refs, sg⟩ := ni
  obtain ⟨hsp, hurl, hfh, hfs, hnh, hns, hdr, hsy, hrefs2, hsg⟩ := hwf
  rcases dv with _ | dv <;> rcases sy with _ | sy <;> rcases sg with _ | sg
  · simp only [narLines, List.foldlM_cons, List.foldlM_nil, bind, Except.bind, pure, Except.pure,
      List.append_nil, List.nil_append, List.cons_append, List.append_assoc,
      parseLine_storePath_ok _ sp hsp hsplast,
      parseLine_url_ok _ url hurl,
      parseLine_comp_ok _ comp,
      parseLine_fileHash_ok _ fh hfh,
      parseLine_fileSize_ok _ fs hfs,
      parseLine_narHash_ok _ nh hnh,
      parseLine_narSize_ok _ ns hns,
      parseLine_refs_ok _ refs hrefs2 hrefs]
    rfl
  · simp only [narLines, List.foldlM_cons, List.foldlM_nil, bind, Except.bind, pure, Except.pure,
      List.append_nil, List.nil_append, List.cons_append, List.append_assoc,
      parseLine_storePath_ok _ sp hsp hsplast,
      parseLine_url_ok _ url hurl,
      parseLine_comp_ok _ comp,
      parseLine_fileHash_ok _ fh hfh,
      parseLine_fileSize_ok _ fs hfs,
      parseLine_narHash_ok _ nh hnh,
      parseLine_narSize_ok _ ns hns,
      parseLine_refs_ok _ refs hrefs2 hrefs,
      parseLine_sig_ok _ sg (hsg sg rfl)]
    rfl
  · simp only [narLines, List.foldlM_cons, List.foldlM_nil, bind, Except.bind, pure, Except.pure,
      List.append_nil, List.nil_append, List.cons_append, List.append_assoc,
      parseLine_storePath_ok _ sp hsp hsplast,
      parseLine_url_ok _ url hurl,
      parseLine_comp_ok _ comp,
      parseLine_fileHash_ok _ fh hfh,
      parseLine_fileSize_ok _ fs hfs,
      parseLine_narHash_ok _ nh hnh,
      parseLine_narSize_ok _ ns hns,
      parseLine_refs_ok _ refs hrefs2 hrefs,
      parseLine_system_ok _ sy (hsy sy rfl)]
    rfl
  · simp only [narLines, List.foldlM_cons, List.foldlM_nil, bind, Except.bind, pure, Except.pure,
      List.append_nil, List.nil_append, List.cons_append, List.append_assoc,
      parseLine_storePath_ok _ sp hsp hsplast,
      parseLine_url_ok _ url hurl,
      parseLine_comp_ok _ comp,
      parseLine_fileHash_ok _ fh hfh,
      parseLine_fileSize_ok _ fs hfs,
      parseLine_narHash_ok _ nh hnh,
      parseLine_narSize_ok _ ns hns,
      parseLine_refs_ok _ refs hrefs2 hrefs,
      parseLine_system_ok _ sy (hsy sy rfl),
      parseLine_sig_ok _ sg (hsg sg rfl)]
    rfl
  · simp only [narLines, List.foldlM_cons, List.foldlM_nil, bind, Except.bind, pure, Except.pure,
      List.append_nil, List.nil_append, List.cons_append, List.append_assoc,
      parseLine_storePath_ok _ sp hsp hsplast,
      parseLine_url_ok _ url hurl,
      parseLine_comp_ok _ comp,
      parseLine_fileHash_ok _ fh hfh,
      parseLine_fileSize_ok _ fs hfs,
      parseLine_narHash_ok _ nh hnh,
      parseLine_narSize_ok _ ns hns,
      parseLine_refs_ok _ refs hrefs2 hrefs,
      parseLine_deriver_ok _ dv (hdr dv rfl)]
    rfl
  · simp only [narLines, List.foldlM_cons, List.foldlM_nil, bind, Except.bind, pure, Except.pure,
      List.append_nil, List.nil_append, List.cons_append, List.append_assoc,
      parseLine_storePath_ok _ sp hsp hsplast,
      parseLine_url_ok _ url hurl,
      parseLine_comp_ok _ comp,
      parseLine_fileHash_ok _ fh hfh,
      parseLine_fileSize_ok _ fs hfs,
      parseLine_narHash_ok _ nh hnh,
      parseLine_narSize_ok _ ns hns,
      parseLine_refs_ok _ refs hrefs2 hrefs,
      parseLine_deriver_ok _ dv (hdr dv rfl),
      parseLine_sig_ok _ sg (hsg sg rfl)]
    rfl
  · simp only [narLines, List.foldlM_cons, List.foldlM_nil, bind, Except.bind, pure, Except.pure,
      List.append_nil, List.nil_append, List.cons_append, List.append_assoc,
      parseLine_storePath_ok _ sp hsp hsplast,
      parseLine_url_ok _ url hurl,
      parseLine_comp_ok _ comp,
      parseLine_fileHash_ok _ fh hfh,
      parseLine_fileSize_ok _ fs hfs,
      parseLine_narHash_ok _ nh hnh,
      parseLine_narSize_ok _ ns hns,
      parseLine_refs_ok _ refs hrefs2 hrefs,
      parseLine_deriver_ok _ dv (hdr dv rfl),
      parseLine_system_ok _ sy (hsy sy rfl)]
    rfl
  · simp only [narLines, List.foldlM_cons, List.foldlM_nil, bind, Except.bind, pure, Except.pure,
      List.append_nil, List.nil_append, List.cons_append, List.append_assoc,
      parseLine_storePath_ok _ sp hsp hsplast,
      parseLine_url_ok _ url hurl,
      parseLine_comp_ok _ comp,
      parseLine_fileHash_ok _ fh hfh,
      parseLine_fileSize_ok _ fs hfs,
      parseLine_narHash_ok _ nh hnh,
      parseLine_narSize_ok _ ns hns,
      parseLine_refs_ok _ refs hrefs2 hrefs,
      parseLine_deriver_ok _ dv (hdr dv rfl),
      parseLine_system_ok _ sy (hsy sy rfl),
      parseLine_sig_ok _ sg (hsg sg rfl)]
    rfl

/-! ## What parsing guarantees about a store path -/

theorem stripSlashes_append (s : Str) : ∃ u, s = stripSlashes s ++ u := by
  refine ⟨(s.reverse.takeWhile (fun c => c = '/')).reverse, ?_⟩
  unfold stripSlashes
  rw [← List.reverse_append]
  conv_lhs => rw [← List.reverse_reverse s]
  congr 1
  rw [List.takeWhile_append_dropWhile]

theorem reverse_dropWhile_drop (q : Char → Bool) (t : Str) (k : Nat) :
    ∃ w, t = ((t.reverse.drop k).dropWhile q).reverse ++ w := by
  refine ⟨(t.reverse.take k ++ (t.reverse.drop k).takeWhile q).reverse, ?_⟩
  rw [← List.reverse_append]
  conv_lhs => rw [← List.reverse_reverse t]
  congr 1
  rw [List.append_assoc, List.takeWhile_append_dropWhile, List.take_append_drop]

theorem rustParent_wf (s r : Str) (h : rustParent s = some r) :
    RootOk r ∧ (r = ['/'] ∨ ∃ w, s = r ++ w) := by
  rw [rustParent_body] at h
  split at h
  · exact absurd h (by simp)
  · split at h
    · exact absurd h (by simp)
    · split at h
      · injection h with h2
        subst h2
        exact ⟨Or.inl rfl, Or.inr ⟨s, rfl⟩⟩
      · split at h
        · injection h with h2
          subst h2
          exact ⟨Or.inr (Or.inl rfl), Or.inl rfl⟩
        · next hpre =>
          injection h with h2
          subst h2
          constructor
          · refine Or.inr (Or.inr ⟨fun he => hpre (by rw [he]), ?_⟩)
            intro hc
            rw [List.getLast?_reverse] at hc
            exact absurd (dropWhile_head_not _ _ hc) (by simp)
          · refine Or.inr ?_
            obtain ⟨u, hu⟩ := stripSlashes_append s
            obtain ⟨w, hw⟩ := reverse_dropWhile_drop (fun c => c = '/') (stripSlashes s)
              (((stripSlashes s).reverse.takeWhile (fun c => c ≠ '/')).length)
            refine ⟨w ++ u, ?_⟩
            conv_lhs => rw [hu, hw]
            rw [List.append_assoc]

theorem headNotWs_of_append {s r w : Str} (hw : s = r ++ w) (hhd : HeadNotWs s) :
    HeadNotWs r := by
  intro c hc
  apply hhd
  rw [hw]
  cases r with
  | nil => cases hc
  | cons x xs => exact hc

theorem rustFileName_wf (s nm : Str) (h : rustFileName s = some nm) :
    ∀ c ∈ nm, c ∈ s ∧ c ≠ '/' := by
  rw [rustFileName_body] at h
  split at h
  · exact absurd h (by simp)
  · split at h
    · exact absurd h (by simp)
    · injection h with h2
      subst h2
      intro c hc
      rw [List.mem_reverse] at hc
      constructor
      · have h3 : c ∈ (stripSlashes s).reverse := (List.takeWhile_sublist _).mem hc
        rw [List.mem_reverse] at h3
        obtain ⟨u, hu⟩ := stripSlashes_append s
        rw [hu]
        exact List.mem_append_left _ h3
      · have h4 := List.mem_takeWhile_imp hc
        simpa using h4

theorem derivFromStr_inv (t : Str) (r : Derivation) (h : derivFromStr t = .ok r) :
    r.hash.string.all rustIsAlnum = true ∧ r.package ≠ [] ∧ ∀ c ∈ r.package, c ∈ t := by
  unfold derivFromStr at h
  split at h
  · exact absurd h (by simp)
  · exact absurd h (by simp)
  · next hp p hpne hsp =>
    obtain ⟨hte, _⟩ := splitOnce_eq hsp
    split at h
    · exact absurd h (by simp)
    · next hh hok =>
      injection h with h2
      subst h2
      exact ⟨hashFromStr_string_alnum _ _ hok, fun he => hpne he,
        fun c hc => by
          rw [hte]
          exact List.mem_append_right _ (List.mem_cons_of_mem '-' hc)⟩

theorem storePathFromStr_wf (s : Str) (sp : StorePath) (hnl : '\n' ∉ s)
    (hhd : HeadNotWs s) (h : storePathFromStr s = .ok sp) : SpWF sp := by
  unfold storePathFromStr at h
  split at h
  · exact absurd h (by simp)
  · next root hpar =>
    split at h
    · exact absurd h (by simp)
    · next nm hfn =>
      split at h
      · exact absurd h (by simp)
      · next d hd =>
        injection h with h2
        subst h2
        have hnm := rustFileName_wf s nm hfn
        obtain ⟨hro, hpre⟩ := rustParent_wf s root hpar
        obtain ⟨hal, hpne, hsub⟩ := derivFromStr_inv nm d hd
        refine ⟨hro, ?_, ?_, hal, hpne, ?_, ?_⟩
        · rcases hpre with he | ⟨w, hw⟩
          · subst he
            intro c hc
            have h3 : some '/' = some c := by simpa using hc
            injection h3 with h4
            subst h4
            decide
          · exact headNotWs_of_append hw hhd
        · rcases hpre with he | ⟨w, hw⟩
          · subst he
            show '\n' ∉ (['/'] : Str)
            decide
          · intro hm
            exact hnl (hw ▸ List.mem_append_left _ hm)
        · intro hm
          exact absurd (hnm '/' (hsub '/' hm)).2 (by simp)
        · intro hm
          exact hnl (hnm '\n' (hsub '\n' hm)).1

/-! ## Parse-time invariants of the builder -/

theorem parseUsize_aux (t : Str) (n : Nat)
    (h : (if t = [] then none
      else if t.all Char.isDigit then
        let v := t.foldl (fun a c => 10 * a + (c.toNat - 48)) 0
        if v < 2 ^ 64 then some v else none
      else none) = some n) : n < 2 ^ 64 := by
  split at h
  · exact absurd h (by simp)
  · split at h
    · have h2 : (if t.foldl (fun a c => 10 * a + (c.toNat - 48)) 0 < 2 ^ 64
          then some (t.foldl (fun a c => 10 * a + (c.toNat - 48)) 0) else none)
          = some n := h
      split at h2
      · next hlt =>
        injection h2 with h3
        subst h3
        exact hlt
      · exact absurd h2 (by simp)
    · exact absurd h (by simp)

theorem parseUsize_lt (s2 : Str) (n : Nat) (h : parseUsize s2 = some n) : n < 2 ^ 64 := by
  unfold parseUsize at h
  exact parseUsize_aux _ n h

theorem mapM_refs_wf (ts : List Str) (rs : List Derivation)
    (hts : ∀ t ∈ ts, t ≠ [] ∧ ∀ c ∈ t, rustIsWs c = false)
    (h : ts.mapM derivFromStr = .ok rs) : ∀ r ∈ rs, DerivRefWF r := by
  induction ts generalizing rs with
  | nil =>
    simp only [List.mapM_nil, pure, Except.pure, Except.ok.injEq] at h
    subst h
    intro r hr
    simp at hr
  | cons t ts2 ih =>
    rw [List.mapM_cons] at h
    rcases hd : derivFromStr t with e | r1
    · rw [hd] at h
      simp [bind, Except.bind] at h
    · rw [hd] at h
      rcases hm2 : ts2.mapM derivFromStr with e | rs2
      · rw [hm2] at h
        simp [bind, Except.bind] at h
      · rw [hm2] at h
        simp only [bind, Except.bind, pure, Except.pure, Except.ok.injEq] at h
        subst h
        intro r hr
        rcases List.mem_cons.mp hr with he | hmem
        · subst he
          exact derivFromStr_wf t r (hts t (List.mem_cons_self _ _)).2 hd
        · exact ih rs2 (fun x hx => hts x (List.mem_cons_of_mem t hx)) hm2 r hmem

theorem narParseLine_eq (b : NarInfoB) (line : Str) :
    narParseLine b line =
      (match splitOnceChar ':' line with
      | none => .error (.invalidEntryFormat line)
      | some (k, v) =>
        if trimStr k = lit "StorePath" then
          match storePathFromStr (trimStr v) with
          | .error _ => .error (.invalidFieldValue (lit "StorePath") (trimStr v))
          | .ok sp => .ok { b with storePath := some sp }
        else if trimStr k = lit "URL" then .ok { b with url := some (trimStr v) }
        else if trimStr k = lit "Compression" then
          match compFromStr (trimStr v) with
          | .error _ => .error (.invalidFieldValue (lit "Compression") (trimStr v))
          | .ok c => .ok { b with compression := some c }
        else if trimStr k = lit "FileHash" then
          match hashFromStr (trimStr v) with
          | .error _ => .error (.invalidFieldValue (lit "FileHash") (trimStr v))
          | .ok h => .ok { b with fileHash := some h }
        else if trimStr k = lit "FileSize" then
          match parseUsize (trimStr v) with
          | none => .error (.invalidFieldValue (lit "FileSize") (trimStr v))
          | some n => .ok { b with fileSize := some n }
        else if trimStr k = lit "NarHash" then
          match hashFromStr (trimStr v) with
          | .error _ => .error (.invalidFieldValue (lit "NarHash") (trimStr v))
          | .ok h => .ok { b with narHash := some h }
        else if trimStr k = lit "NarSize" then
          match parseUsize (trimStr v) with
          | none => .error (.invalidFieldValue (lit "NarSize") (trimStr v))
          | some n => .ok { b with narSize := some n }
        else if trimStr k = lit "Deriver" then
          .ok { b with deriver := some (some (trimStr v)) }
        else if trimStr k = lit "System" then
          .ok { b with system := some (some (trimStr v)) }
        else if trimStr k = lit "References" then
          match (splitWs (trimStr v)).mapM derivFromStr with
          | .error e => .error (.invalidReference e)
          | .ok rs => .ok { b with references := some rs }
        else if trimStr k = lit "Sig" then
          .ok { b with signature := some (some (trimStr v)) }
        else .error (.unknownField line)) := rfl

theorem narParseLine_wf (b b2 : NarInfoB) (l : Str) (hnl : '\n' ∉ l)
    (hbwf : NarInfoBWF b) (h : narParseLine b l = .ok b2) : NarInfoBWF b2 := by
  obtain ⟨w1, w2, w3, w4, w5, w6, w7, w8, w9, w10⟩ := hbwf
  rw [narParseLine_eq] at h
  split at h
  · exact absurd h (by simp)
  · next k v hsp =>
    obtain ⟨hle, hkc⟩ := splitOnce_eq hsp
    have hvnl : '\n' ∉ trimStr v := by
      intro hm
      apply hnl
      rw [hle]
      exact List.mem_append_right _ (List.mem_cons_of_mem ':' (mem_of_mem_trim hm))
    have hvv : ValWF (trimStr v) := ⟨trim_idem v, hvnl⟩
    by_cases hk1 : trimStr k = lit "StorePath"
    · rw [if_pos hk1] at h
      split at h
      · exact absurd h (by simp)
      · next sp heq =>
        injection h with h2
        subst h2
        refine ⟨?_, w2, w3, w4, w5, w6, w7, w8, w9, w10⟩
        intro sp' hsp'
        injection hsp' with h3
        subst h3
        exact storePathFromStr_wf _ _ hvnl (trim_headNotWs v) heq
    · rw [if_neg hk1] at h
      by_cases hk2 : trimStr k = lit "URL"
      · rw [if_pos hk2] at h
        injection h with h2
        subst h2
        refine ⟨w1, ?_, w3, w4, w5, w6, w7, w8, w9, w10⟩
        intro v' hv'
        injection hv' with h3
        subst h3
        exact hvv
      · rw [if_neg hk2] at h
        by_cases hk3 : trimStr k = lit "Compression"
        · rw [if_pos hk3] at h
          split at h
          · exact absurd h (by simp)
          · next c heq =>
            injection h with h2
            subst h2
            exact ⟨w1, w2, w3, w4, w5, w6, w7, w8, w9, w10⟩
        · rw [if_neg hk3] at h
          by_cases hk4 : trimStr k = lit "FileHash"
          · rw [if_pos hk4] at h
            split at h
            · exact absurd h (by simp)
            · next hh heq =>
              injection h with h2
              subst h2
              refine ⟨w1, w2, ?_, w4, w5, w6, w7, w8, w9, w10⟩
              intro hh' hheq
              injection hheq with h3
              subst h3
              exact hashFromStr_wf _ _ hvnl (trim_headNotWs v) heq
          · rw [if_neg hk4] at h
            by_cases hk5 : trimStr k = lit "FileSize"
            · rw [if_pos hk5] at h
              split at h
              · exact absurd h (by simp)
              · next n heq =>
                injection h with h2
                subst h2
                refine ⟨w1, w2, w3, ?_, w5, w6, w7, w8, w9, w10⟩
                intro n' hn'
                injection hn' with h3
                subst h3
                exact parseUsize_lt _ _ heq
            · rw [if_neg hk5] at h
              by_cases hk6 : trimStr k = lit "NarHash"
              · rw [if_pos hk6] at h
                split at h
                · exact absurd h (by simp)
                · next hh heq =>
                  injection h with h2
                  subst h2
                  refine ⟨w1, w2, w3, w4, ?_, w6, w7, w8, w9, w10⟩
                  intro hh' hheq
                  injection hheq with h3
                  subst h3
                  exact hashFromStr_wf _ _ hvnl (trim_headNotWs v) heq
              · rw [if_neg hk6] at h
                by_cases hk7 : trimStr k = lit "NarSize"
                · rw [if_pos hk7] at h
                  split at h
                  · exact absurd h (by simp)
                  · next n heq =>
                    injection h with h2
                    subst h2
                    refine ⟨w1, w2, w3, w4, w5, ?_, w7, w8, w9, w10⟩
                    intro n' hn'
                    injection hn' with h3
                    subst h3
                    exact parseUsize_lt _ _ heq
                · rw [if_neg hk7] at h
                  by_cases hk8 : trimStr k = lit "Deriver"
                  · rw [if_pos hk8] at h
                    injection h with h2
                    subst h2
                    refine ⟨w1, w2, w3, w4, w5, w6, ?_, w8, w9, w10⟩
                    intro o w' ho hw'
                    injection ho with h3
                    subst h3
                    injection hw' with h4
                    subst h4
                    exact hvv
                  · rw [if_neg hk8] at h
                    by_cases hk9 : trimStr k = lit "System"
                    · rw [if_pos hk9] at h
                      injection h with h2
                      subst h2
                      refine ⟨w1, w2, w3, w4, w5, w6, w7, ?_, w9, w10⟩
                      intro o w' ho hw'
                      injection ho with h3
                      subst h3
                      injection hw' with h4
                      subst h4
                      exact hvv
                    · rw [if_neg hk9] at h
                      by_cases hk10 : trimStr k = lit "References"
                      · rw [if_pos hk10] at h
                        split at h
                        · exact absurd h (by simp)
                        · next rs heq =>
                          injection h with h2
                          subst h2
                          refine ⟨w1, w2, w3, w4, w5, w6, w7, w8, ?_, w10⟩
                          intro rs' hrs'
                          injection hrs' with h3
                          subst h3
                          exact mapM_refs_wf _ _ (splitWs_wf (trimStr v)) heq
                      · rw [if_neg hk10] at h
                        by_cases hk11 : trimStr k = lit "Sig"
                        · rw [if_pos hk11] at h
                          injection h with h2
                          subst h2
                          refine ⟨w1, w2, w3, w4, w5, w6, w7, w8, w9, ?_⟩
                          intro o w' ho hw'
                          injection ho with h3
                          subst h3
                          injection hw' with h4
                          subst h4
                          exact hvv
                        · rw [if_neg hk11] at h
                          exact absurd h (by simp)

theorem narInfoBWF_empty : NarInfoBWF {} :=
  ⟨fun _ hx => (nomatch hx), fun _ hx => (nomatch hx), fun _ hx => (nomatch hx),
   fun _ hx => (nomatch hx), fun _ hx => (nomatch hx), fun _ hx => (nomatch hx),
   fun _ _ hx _ => (nomatch hx), fun _ _ hx _ => (nomatch hx),
   fun _ hx => (nomatch hx), fun _ _ hx _ => (nomatch hx)⟩

theorem foldlM_parse_wf (ls : List Str) (hnl : ∀ l ∈ ls, '\n' ∉ l) :
    ∀ b b2, NarInfoBWF b → ls.foldlM narParseLine b = .ok b2 → NarInfoBWF b2 := by
  induction ls with
  | nil =>
    intro b b2 hb h
    simp only [List.foldlM_nil, pure, Except.pure, Except.ok.injEq] at h
    subst h
    exact hb
  | cons l ls2 ih =>
    intro b b2 hb h
    rw [List.foldlM_cons] at h
    rcases hp : narParseLine b l with e | b1
    · rw [hp] at h
      simp [bind, Except.bind] at h
    · rw [hp] at h
      have h2 : ls2.foldlM narParseLine b1 = .ok b2 := by
        simpa [bind, Except.bind] using h
      exact ih (fun x hx => hnl x (List.mem_cons_of_mem l hx)) b1 b2
        (narParseLine_wf b b1 l (hnl l (List.mem_cons_self _ _)) hb hp) h2

theorem narBuild_wf (b : NarInfoB) (d : NarInfo) (hb : NarInfoBWF b)
    (h : narBuild b = .ok d) : NarInfoWF d := by
  obtain ⟨w1, w2, w3, w4, w5, w6, w7, w8, w9, w10⟩ := hb
  unfold narBuild at h
  split at h
  · exact absurd h (by simp)
  · next sp hsp =>
    split at h
    · exact absurd h (by simp)
    · next url hurl =>
      split at h
      · exact absurd h (by simp)
      · next comp hcomp =>
        split at h
        · exact absurd h (by simp)
        · next fh hfh =>
          split at h
          · exact absurd h (by simp)
          · next fs hfs =>
            split at h
            · exact absurd h (by simp)
            · next nh hnh =>
              split at h
              · exact absurd h (by simp)
              · next ns hns =>
                split at h
                · exact absurd h (by simp)
                · next refs hrefs =>
                  injection h with h2
                  subst h2
                  refine ⟨w1 sp hsp, w2 url hurl, w3 fh hfh, w4 fs hfs, w5 nh hnh,
                    w6 ns hns, ?_, ?_, w9 refs hrefs, ?_⟩
                  · intro v hv
                    rcases hd : b.deriver with _ | o
                    · rw [hd] at hv
                      cases hv
                    · rw [hd] at hv
                      exact w7 o v hd hv
                  · intro v hv
                    rcases hd : b.system with _ | o
                    · rw [hd] at hv
                      cases hv
                    · rw [hd] at hv
                      exact w8 o v hd hv
                  · intro v hv
                    rcases hd : b.signature with _ | o
                    · rw [hd] at hv
                      cases hv
                    · rw [hd] at hv
                      exact w10 o v hd hv

theorem narInfoFromStr_wf (s : Str) (d : NarInfo) (h : narInfoFromStr s = .ok d) :
    NarInfoWF d := by
  unfold narInfoFromStr at h
  rcases hf : (rustLines s).foldlM narParseLine {} with e | b
  · rw [hf] at h
    simp [bind, Except.bind] at h
  · rw [hf] at h
    have h2 : narBuild b = .ok d := by simpa [bind, Except.bind] using h
    exact narBuild_wf b d
      (foldlM_parse_wf (rustLines s) (lines_no_nl s) {} b narInfoBWF_empty hf) h2

theorem narInfoBeq_canon (d : NarInfo) : narInfoBeq d (narCanon d) = true := by
  obtain ⟨sp, url, comp, fh, fs, nh, ns, dv, sy, refs, sg⟩ := d
  simp [narInfoBeq, narCanon, spBeq, spCanon, spPath, derivName]

/-- Claim C3 (amended): a descriptor obtained from a successful parse
survives a render/reparse cycle provided its references carry no hash
method tag and its rendered store path does not end in whitespace; the
reparse yields the canonical form (the store-path derivation hash loses a
method tag it cannot carry in the path), which is equal to the original
under the specification's descriptor equality. -/
theorem claim3_roundtrip_amended (s : Str) (d : NarInfo)
    (h : narInfoFromStr s = .ok d)
    (hrefs : ∀ r ∈ d.references, r.hash.method = none)
    (hlast : LastNotWs (spPath d.storePath)) :
    narInfoFromStr (narInfoToStr d) = .ok (narCanon d) ∧
      narInfoBeq d (narCanon d) = true :=
  ⟨narInfo_roundtrip d (narInfoFromStr_wf s d h) hrefs hlast, narInfoBeq_canon d⟩

/-- Witness for the amended C3 at a concrete parsed descriptor. -/
theorem claim3_roundtrip_amended_witness :
    narInfoFromStr wit3S = .ok wit3D ∧
    (∀ r ∈ wit3D.references, r.hash.method = none) ∧
    LastNotWs (spPath wit3D.storePath) ∧
    (narInfoFromStr (narInfoToStr wit3D) = .ok (narCanon wit3D) ∧
      narInfoBeq wit3D (narCanon wit3D) = true) :=
  ⟨rfl, by decide, fun c hc => by cases hc; decide,
    claim3_roundtrip_amended wit3S wit3D rfl (by decide)
      (fun c hc => by cases hc; decide)⟩

/-! ## Claim C8: the narinfo table round-trip -/

theorem i64OfNat_eq (n : Nat) : i64OfNat n =
    (if n % 2 ^ 64 < 2 ^ 63 then ((n % 2 ^ 64 : Nat) : Int)
     else ((n % 2 ^ 64 : Nat) : Int) - 2 ^ 64) := rfl

theorem usize_i64_roundtrip (n : Nat) (h : n < 2 ^ 64) : usizeOfI64 (i64OfNat n) = n := by
  unfold usizeOfI64
  rw [i64OfNat_eq, Nat.mod_eq_of_lt h]
  split
  · next hlt => omega
  · next hlt => omega

theorem narInfoOfEntry_roundtrip (h : Str) (ni : NarInfo)
    (hsp : SpWF ni.storePath) (hfs : ni.fileSize < 2 ^ 64) (hns : ni.narSize < 2 ^ 64)
    (hrefs : ∀ r ∈ ni.references, DerivRefWF r) :
    narInfoOfEntry (entryFromNarInfo h ni) = .ok
      { ni with
        storePath := spCanon ni.storePath
        url := lit "nar/" ++ ni.fileHash.string ++ lit ".nar." ++ compToStr ni.compression
        fileHash := ⟨some (ni.fileHash.method.getD []), ni.fileHash.string⟩
        narHash := ⟨some (ni.fileHash.method.getD []), ni.narHash.string⟩
        references := ni.references.map
          (fun r => (⟨r.package, ⟨none, r.hash.string⟩⟩ : Derivation)) } := by
  obtain ⟨sp, url, comp, fh, fs, nh, ns, dv, sy, refs, sg⟩ := ni
  cases comp
  have hcomp : compFromStr (compToStr CompressionType.xz) = .ok .xz := rfl
  simp only [narInfoOfEntry, entryFromNarInfo, Hash.fromMethodHash, refsColumn, hcomp,
    storePathFromStr_path sp hsp, splitWs_names refs hrefs, mapM_derivs refs hrefs,
    usize_i64_roundtrip fs hfs, usize_i64_roundtrip ns hns, narBuild]
  rfl

/-- Claim C8 counterexample: the insert/read-back pair preserves neither
the file hash nor the references.  Inserting `wit3D`, whose file hash
carries no method tag, reads back with `file_hash.method = Some ""` (the
missing method is rendered as the empty string by `unwrap_or_default` and
rebuilt as `Some` by `from_method_hash`) and `nar_hash.method = Some ""`,
not the original file hash's `None`.  Inserting `cex3D`, whose single
reference carries a `sha256:` method tag, reads back with the tag gone,
because the refs column stores `Derivation::name`, which drops it. -/
theorem claim8_counterexample :
    (dbInsertNarInfo ⟨[], []⟩ (lit "abc") wit3D (lit "http://upstream") false
      = some cex8Db ∧
    dbGetNarInfo cex8Db (lit "abc") = some (.ok cex8Out) ∧
    cex8Out.fileHash ≠ wit3D.fileHash ∧
    cex8Out.narHash.method = some [] ∧ wit3D.fileHash.method = none) ∧
    (dbInsertNarInfo ⟨[], []⟩ (lit "abc") cex3D (lit "http://upstream") false
      = some cex8Db2 ∧
    dbGetNarInfo cex8Db2 (lit "abc") = some (.ok cex8Out2) ∧
    cex8Out2.references ≠ cex3D.references) :=
  ⟨⟨rfl, rfl, by decide, rfl, rfl⟩, ⟨rfl, rfl, by decide⟩⟩

/-- Claim C8 (amended): after `insert_nar_info(h, d, u, force)` succeeds,
`get_nar_info(h)` returns a descriptor that keeps `d`'s compression, hash
digests, sizes, deriver, system and signature; the store path and the
references come back in canonical form (the store path's derivation hash
and every reference lose their method tag, which `Derivation::name`
cannot render); the URL is recomputed from the file hash and compression;
and *both* returned hash methods are
`Some (d.file_hash.method.unwrap_or_default())` — `Some ""`, not `None`,
when the file hash had no method. -/
theorem claim8_amended (h u : Str) (ni : NarInfo) (db db2 : CacheDb) (force : Bool)
    (hins : dbInsertNarInfo db h ni u force = some db2)
    (hsp : SpWF ni.storePath) (hfs : ni.fileSize < 2 ^ 64) (hns : ni.narSize < 2 ^ 64)
    (hrefs : ∀ r ∈ ni.references, DerivRefWF r) :
    dbGetNarInfo db2 h = some (.ok
      { ni with
        storePath := spCanon ni.storePath
        url := lit "nar/" ++ ni.fileHash.string ++ lit ".nar." ++ compToStr ni.compression
        fileHash := ⟨some (ni.fileHash.method.getD []), ni.fileHash.string⟩
        narHash := ⟨some (ni.fileHash.method.getD []), ni.narHash.string⟩
        references := ni.references.map
          (fun r => (⟨r.package, ⟨none, r.hash.string⟩⟩ : Derivation)) }) := by
  have hout := narInfoOfEntry_roundtrip h ni hsp hfs hns hrefs
  have hone : List.find? (fun r => r.entry.hash = h)
      [(⟨entryFromNarInfo h ni, u⟩ : NarInfoRow)] = some ⟨entryFromNarInfo h ni, u⟩ :=
    List.find?_cons_of_pos _ (by simp [entryFromNarInfo])
  unfold dbInsertNarInfo at hins
  split at hins
  · injection hins with h2
    subst h2
    unfold dbGetNarInfo
    have hnone : (db.narinfoTbl.filter (fun r => ¬(r.entry.hash = h))).find?
        (fun r => r.entry.hash = h) = none := by
      rw [List.find?_eq_none]
      intro x hx hpx
      rw [List.mem_filter] at hx
      have h3 := hx.2
      simp at h3 hpx
      exact h3 hpx
    rw [List.find?_append, hnone, hone]
    show some (narInfoOfEntry (entryFromNarInfo h ni)) = _
    rw [hout]
  · split at hins
    · exact absurd hins (by simp)
    · next hfind =>
      injection hins with h2
      subst h2
      unfold dbGetNarInfo
      have hnone : db.narinfoTbl.find? (fun r => r.entry.hash = h) = none := by
        cases hh : db.narinfoTbl.find? (fun r => r.entry.hash = h)
        · rfl
        · rw [hh] at hfind
          simp at hfind
      rw [List.find?_append, hnone, hone]
      show some (narInfoOfEntry (entryFromNarInfo h ni)) = _
      rw [hout]

/-- Witness for the amended C8 at a concrete insertion. -/
theorem claim8_amended_witness :
    dbInsertNarInfo ⟨[], []⟩ (lit "abc") wit3D (lit "http://upstream") false
        = some cex8Db ∧
    SpWF wit3D.storePath ∧ wit3D.fileSize < 2 ^ 64 ∧ wit3D.narSize < 2 ^ 64 ∧
    (∀ r ∈ wit3D.references, DerivRefWF r) ∧
    dbGetNarInfo cex8Db (lit "abc") = some (.ok
      { wit3D with
        storePath := spCanon wit3D.storePath
        url := lit "nar/" ++ wit3D.fileHash.string ++ lit ".nar."
          ++ compToStr wit3D.compression
        fileHash := ⟨some (wit3D.fileHash.method.getD []), wit3D.fileHash.string⟩
        narHash := ⟨some (wit3D.fileHash.method.getD []), wit3D.narHash.string⟩
        references := wit3D.references.map
          (fun r => (⟨r.package, ⟨none, r.hash.string⟩⟩ : Derivation)) }) := by
  have hspw : SpWF wit3D.storePath :=
    ⟨Or.inr (Or.inr (by decide)), fun c hc => by cases hc; decide,
      by decide, by decide, by decide, by decide, by decide⟩
  have hrw : ∀ r ∈ wit3D.references, DerivRefWF r := by
    intro r hr
    have hr2 : r ∈ [(⟨lit "pkg", ⟨none, lit "abc"⟩⟩ : Derivation)] := hr
    rw [List.mem_singleton] at hr2
    subst hr2
    exact ⟨by decide, by decide, by decide⟩
  exact ⟨rfl, hspw, by decide, by decide, hrw,
    claim8_amended (lit "abc") (lit "http://upstream") wit3D ⟨[], []⟩ cex8Db false
      rfl hspw (by decide) (by decide) hrw⟩

end Nicacher
